import Mathlib

/-!
Package `trim` (goaux/trim): indentation and margin stripping.

A shallow embedding of `trim.go`.  A Go `string` is a sequence of bytes; it is
modelled as a `List Nat` whose elements are the byte values.  Offsets (`int`)
are `Int`, so that the `-1` results of `strings.IndexFunc` and `strings.Index`
and the sentinel `math.MaxInt` keep their source form.  The theorems hold for
every list, hence for every list of bytes; a Go string has at most
`math.MaxInt` bytes, which is the hypothesis `s.length ≤ maxLen` where the
sentinel matters.

The parts of the Go standard library used by `trim.go`
(`unicode.IsSpace`, the UTF-8 decoding of a `range` loop, `strings.IndexFunc`,
`strings.Index`, `strings.Split`, `strings.Join`, `strings.Replacer`) are
embedded from their Go definitions.
-/

namespace Trim

/-! ## Standard library: runes and UTF-8 -/

/-- A Go string: its bytes in order. -/
abbrev Str := List Nat

/-- The line feed byte. -/
abbrev LF : Nat := 0x0A

/-- The carriage return byte. -/
abbrev CR : Nat := 0x0D

/-- The value `utf8.RuneError` (U+FFFD), produced for every invalid byte. -/
def runeError : Nat := 0xFFFD

/-- The function `unicode.IsSpace`: Latin-1 is special-cased, the other runes
are looked up in the `White_Space` table. -/
def isSpace (r : Nat) : Bool :=
  if r ≤ 0xFF then
    r == 0x09 || r == 0x0A || r == 0x0B || r == 0x0C || r == 0x0D || r == 0x20
      || r == 0x85 || r == 0xA0
  else
    r == 0x1680 || (0x2000 ≤ r && r ≤ 0x200A) || r == 0x2028 || r == 0x2029
      || r == 0x202F || r == 0x205F || r == 0x3000

/-- The function `isNotSpace` of `trim.go`: the negation of `unicode.IsSpace`. -/
def isNotSpace (r : Nat) : Bool := !isSpace r

/-- A UTF-8 continuation byte: between `locb` (0x80) and `hicb` (0xBF). -/
def isCont (b : Nat) : Bool := 0x80 ≤ b && b ≤ 0xBF

/-- The rune at the head of a string and its width in bytes, as a `range` loop
over a string decodes it: an ASCII byte is itself; a well-formed two, three or
four byte sequence (not overlong, not a surrogate, at most U+10FFFF) is its
code point; anything else is `runeError` of width one. -/
def decodeRune : Str → Nat × Nat
  | [] => (runeError, 1)
  | b0 :: rest =>
    if b0 < 0x80 then (b0, 1)
    else if 0xC0 ≤ b0 ∧ b0 < 0xE0 then
      match rest with
      | b1 :: _ =>
        if isCont b1 then
          let r := (b0 % 0x20) * 0x40 + b1 % 0x40
          if 0x7F < r then (r, 2) else (runeError, 1)
        else (runeError, 1)
      | _ => (runeError, 1)
    else if 0xE0 ≤ b0 ∧ b0 < 0xF0 then
      match rest with
      | b1 :: b2 :: _ =>
        if isCont b1 && isCont b2 then
          let r := (b0 % 0x10) * 0x1000 + (b1 % 0x40) * 0x40 + b2 % 0x40
          if 0x7FF < r ∧ ¬ (0xD800 ≤ r ∧ r ≤ 0xDFFF) then (r, 3) else (runeError, 1)
        else (runeError, 1)
      | _ => (runeError, 1)
    else if 0xF0 ≤ b0 ∧ b0 < 0xF8 then
      match rest with
      | b1 :: b2 :: b3 :: _ =>
        if isCont b1 && isCont b2 && isCont b3 then
          let r := (b0 % 0x08) * 0x40000 + (b1 % 0x40) * 0x1000 + (b2 % 0x40) * 0x40 + b3 % 0x40
          if 0xFFFF < r ∧ r ≤ 0x10FFFF then (r, 4) else (runeError, 1)
        else (runeError, 1)
      | _ => (runeError, 1)
    else (runeError, 1)

/-- The loop of `strings.IndexFunc`: `for i, r := range s { if f(r) { return i } }`
and `-1` after the loop.  `i` is the byte offset of the head of the list and
`skip` the number of bytes of the current rune that are still to be passed. -/
def indexFuncGo (f : Nat → Bool) : Nat → Nat → Str → Int
  | _, _, [] => -1
  | i, 0, b :: rest =>
    if f (decodeRune (b :: rest)).1 then (i : Int)
    else indexFuncGo f (i + 1) ((decodeRune (b :: rest)).2 - 1) rest
  | i, skip + 1, _ :: rest => indexFuncGo f (i + 1) skip rest

/-- The function `strings.IndexFunc`: the byte offset of the first rune
satisfying `f`, or `-1`. -/
def IndexFunc (s : Str) (f : Nat → Bool) : Int := indexFuncGo f 0 0 s

/-- The loop of `strings.Index`: the first offset at which `substr` starts. -/
def indexGo (substr : Str) : Nat → Str → Int
  | i, [] => if substr.isPrefixOf [] then (i : Int) else -1
  | i, b :: rest => if substr.isPrefixOf (b :: rest) then (i : Int) else indexGo substr (i + 1) rest

/-- The function `strings.Index`: the byte offset of the first occurrence of
`substr` in `s`, or `-1`. -/
def Index (s substr : Str) : Int := indexGo substr 0 s

/-- The function `strings.Split(s, "\n")`. -/
def splitLF : Str → List Str
  | [] => [[]]
  | b :: rest =>
    if b = LF then [] :: splitLF rest
    else
      match splitLF rest with
      | [] => [[b]]
      | l :: ls => (b :: l) :: ls

/-- The function `strings.Join(lines, "\n")`. -/
def joinLF : List Str → Str
  | [] => []
  | [l] => l
  | l :: ls => l ++ LF :: joinLF ls

/-- The replacer `eolRepl = strings.NewReplacer("\r\n", "\n", "\r", "\n")`
applied to a string: at each offset the first pair that matches is replaced
(`"\r\n"` before `"\r"`), the replacement is not scanned again. -/
def eolRepl : Str → Str
  | [] => []
  | [b] => if b = CR then [LF] else [b]
  | b :: c :: rest =>
    if b = CR then
      if c = LF then LF :: eolRepl rest else LF :: eolRepl (c :: rest)
    else b :: eolRepl (c :: rest)

/-! ## trim.go -/

/-- The function `indexNotSpace`. -/
def indexNotSpace (s : Str) : Int := IndexFunc s isNotSpace

/-- The function `IsBlank`. -/
def IsBlank (s : Str) : Bool := indexNotSpace s == -1

/-- The first `if` of `split`: remove the first line when it exists and is
blank (`lines = lines[1:]`). -/
def dropFirstBlank (lines : List Str) : List Str :=
  if lines.length > 0 ∧ IsBlank (lines.headD []) then lines.drop 1 else lines

/-- The second `if` of `split`: with `last := len(lines) - 1`, remove the last
line when it exists and is blank (`lines = lines[:last]`). -/
def dropLastBlank (lines : List Str) : List Str :=
  if (lines.length : Int) - 1 ≥ 0 ∧ IsBlank (lines.getD ((lines.length : Int) - 1).toNat [])
  then lines.take ((lines.length : Int) - 1).toNat else lines

/-- The function `split`: normalise the line ends, split at LF, drop a blank
first line and then a blank last line. -/
def split (s : Str) : List Str :=
  dropLastBlank (dropFirstBlank (splitLF (eolRepl s)))

/-- The constant `sentinel = math.MaxInt` (64-bit `int`). -/
def sentinel : Int := 9223372036854775807

/-- One step of the first loop of `Indent`. -/
def indentStep (indent : Int) (line : Str) : Int :=
  if 0 ≤ indexNotSpace line ∧ indexNotSpace line < indent then indexNotSpace line else indent

/-- The first loop of `Indent`: the common minimum indent, starting from the
sentinel. -/
def detectIndent (lines : List Str) : Int :=
  lines.foldl (fun indent line =>
    if 0 ≤ indexNotSpace line ∧ indexNotSpace line < indent then indexNotSpace line else indent)
    sentinel

/-- The body of the second loop of `Indent` for one line: a line longer than
the indent loses `indent` leading bytes, any other line becomes empty. -/
def stripLine (indent : Int) (line : Str) : Str :=
  if (line.length : Int) > indent then line.drop indent.toNat else []

/-- The second loop of `Indent` under its guard: the lines after the indent
has been removed (unchanged when no positive indent was found). -/
def indentLines (lines : List Str) : List Str :=
  if 0 < detectIndent lines ∧ detectIndent lines ≠ sentinel then
    lines.map (stripLine (detectIndent lines))
  else lines

/-- The function `Indent`. -/
def Indent (s : Str) : Str :=
  if (split s).length = 0 then [] else joinLF (indentLines (split s))

/-- The body of the loop of `Margin` for one line (`p` of the source is
`marginPrefix.length`). -/
def marginLine (marginPrefix : Str) (line : Str) : Str :=
  if Index line marginPrefix ≥ 0 then
    if IsBlank (line.take (Index line marginPrefix).toNat) then
      line.drop ((Index line marginPrefix).toNat + marginPrefix.length)
    else line
  else line

/-- The delimiter used by `Margin`: `"|"` when the argument is empty. -/
def resolvePrefix (marginPrefix : Str) : Str :=
  if marginPrefix = [] then [0x7C] else marginPrefix

/-- The function `Margin`. -/
def Margin (s marginPrefix : Str) : Str :=
  joinLF ((split s).map (marginLine (resolvePrefix marginPrefix)))

/-! ## Specification-side notions -/

/-- The runes of a string in order, as the conversion `[]rune(s)` decodes
them; `skip` counts the bytes of the current rune still to be passed. -/
def runesGo : Nat → Str → List Nat
  | _, [] => []
  | 0, b :: rest => (decodeRune (b :: rest)).1 :: runesGo ((decodeRune (b :: rest)).2 - 1) rest
  | skip + 1, _ :: rest => runesGo skip rest

/-- The characters (code points) of a string. -/
def runes (s : Str) : List Nat := runesGo 0 s

/-- The number of characters (code points) that precede the first
non-whitespace character of a line. -/
def runeIndexNotSpace (l : Str) : Nat := ((runes l).takeWhile isSpace).length

/-- The number `m` is the minimum, over the non-blank lines, of the number of
characters that precede the first non-whitespace character. -/
def IsMinRuneIndent (lines : List Str) (m : Nat) : Prop :=
  (∃ l ∈ lines, IsBlank l = false ∧ runeIndexNotSpace l = m) ∧
    ∀ l ∈ lines, IsBlank l = false → m ≤ runeIndexNotSpace l

/-- The string `s` with every LF replaced by CRLF. -/
def toCRLF : Str → Str
  | [] => []
  | b :: rest => if b = LF then CR :: LF :: toCRLF rest else b :: toCRLF rest

/-- The string `s` with every LF replaced by a bare CR. -/
def toCR : Str → Str
  | [] => []
  | b :: rest => if b = LF then CR :: toCR rest else b :: toCR rest

/-- Two line sequences of the same length that agree at every position holding
a non-blank line and hold blank lines at all remaining positions. -/
def SameUpToBlank (xs ys : List Str) : Prop :=
  xs.length = ys.length ∧
    ∀ (k : Nat) (a b : Str), xs[k]? = some a → ys[k]? = some b →
      a = b ∨ (IsBlank a = true ∧ IsBlank b = true)

/-- The largest length of a Go string: `math.MaxInt`. -/
def maxLen : Nat := 9223372036854775807

/-- The number `m` is the minimum, over the non-blank lines, of the offset of
the first non-whitespace character; at least one line is non-blank. -/
def IsMinIndent (lines : List Str) (m : Nat) : Prop :=
  (∃ l ∈ lines, IsBlank l = false ∧ indexNotSpace l = (m : Int)) ∧
    ∀ l ∈ lines, IsBlank l = false → (m : Int) ≤ indexNotSpace l

/-- The first step of the two-step normalization:
`strings.ReplaceAll(s, "\r\n", "\n")`. -/
def replaceCRLF : Str → Str
  | [] => []
  | [b] => [b]
  | b :: c :: rest =>
    if b = CR ∧ c = LF then LF :: replaceCRLF rest else b :: replaceCRLF (c :: rest)

/-- The second step of the two-step normalization:
`strings.ReplaceAll(s, "\r", "\n")`. -/
def replaceCR (s : Str) : Str := s.map fun b => if b = CR then LF else b

/-- The two-step normalization of the line ends: every CRLF becomes LF, then
every remaining CR becomes LF. -/
def normalizeTwoStep (s : Str) : Str := replaceCR (replaceCRLF s)

/-! ## Run-time checks

The same functions with every index and slice expression checked the way the
Go run time checks it: `none` stands for a panic. -/

/-- The slice expression `s[i:]`, in range when `0 ≤ i ≤ len(s)`. -/
def sliceFrom {α : Type} (s : List α) (i : Int) : Option (List α) :=
  if 0 ≤ i ∧ i ≤ s.length then some (s.drop i.toNat) else none

/-- The slice expression `s[:j]`, in range when `0 ≤ j ≤ len(s)`. -/
def sliceTo {α : Type} (s : List α) (j : Int) : Option (List α) :=
  if 0 ≤ j ∧ j ≤ s.length then some (s.take j.toNat) else none

/-- The index expression `lines[i]`, in range when `0 ≤ i < len(lines)`. -/
def indexAt (lines : List Str) (i : Int) : Option Str :=
  if 0 ≤ i ∧ i < lines.length then lines[i.toNat]? else none

/-- A loop `for i, line := range lines { lines[i] = f(line) }` whose body may
panic. -/
def mapLines (f : Str → Option Str) : List Str → Option (List Str)
  | [] => some []
  | l :: ls =>
    match f l with
    | none => none
    | some o =>
      match mapLines f ls with
      | none => none
      | some os => some (o :: os)

/-- The first `if` of `split`, checked; `&&` evaluates `lines[0]` only when
`len(lines) > 0`. -/
def dropFirstBlankChecked (lines : List Str) : Option (List Str) :=
  if lines.length > 0 then
    match indexAt lines 0 with
    | none => none
    | some l0 => if IsBlank l0 then sliceFrom lines 1 else some lines
  else some lines

/-- The second `if` of `split`, checked. -/
def dropLastBlankChecked (lines : List Str) : Option (List Str) :=
  if (lines.length : Int) - 1 ≥ 0 then
    match indexAt lines ((lines.length : Int) - 1) with
    | none => none
    | some l => if IsBlank l then sliceTo lines ((lines.length : Int) - 1) else some lines
  else some lines

/-- The function `split`, checked. -/
def splitChecked (s : Str) : Option (List Str) :=
  match dropFirstBlankChecked (splitLF (eolRepl s)) with
  | none => none
  | some lines => dropLastBlankChecked lines

/-- The body of the second loop of `Indent`, checked. -/
def stripLineChecked (indent : Int) (line : Str) : Option Str :=
  if (line.length : Int) > indent then sliceFrom line indent else some []

/-- The second loop of `Indent` under its guard, checked. -/
def indentLinesChecked (lines : List Str) : Option (List Str) :=
  if 0 < detectIndent lines ∧ detectIndent lines ≠ sentinel then
    mapLines (stripLineChecked (detectIndent lines)) lines
  else some lines

/-- The function `Indent`, checked. -/
def IndentChecked (s : Str) : Option Str :=
  match splitChecked s with
  | none => none
  | some lines =>
    if lines.length = 0 then some []
    else
      match indentLinesChecked lines with
      | none => none
      | some out => some (joinLF out)

/-- The body of the loop of `Margin`, checked. -/
def marginLineChecked (marginPrefix : Str) (line : Str) : Option Str :=
  if Index line marginPrefix ≥ 0 then
    match sliceTo line (Index line marginPrefix) with
    | none => none
    | some pre =>
      if IsBlank pre then sliceFrom line (Index line marginPrefix + marginPrefix.length)
      else some line
  else some line

/-- The function `Margin`, checked. -/
def MarginChecked (s marginPrefix : Str) : Option Str :=
  match splitChecked s with
  | none => none
  | some lines =>
    match mapLines (marginLineChecked (resolvePrefix marginPrefix)) lines with
    | none => none
    | some out => some (joinLF out)

/-- A line sequence that begins with at most one blank line and ends with at
most one blank line: its first two lines are not both blank and its last two
lines are not both blank. -/
def AtMostOneBlankAtEnds (lines : List Str) : Prop :=
  (∀ a b, lines.head? = some a → lines.tail.head? = some b →
      ¬ (IsBlank a = true ∧ IsBlank b = true)) ∧
    ∀ y z, lines.dropLast.getLast? = some y → lines.getLast? = some z →
      ¬ (IsBlank y = true ∧ IsBlank z = true)

/-- The number of lines of the normalized text: one more than the number of
line terminators of `s`. -/
def lineCount (s : Str) : Nat := (splitLF (eolRepl s)).length

/-- The number of leading bytes that the second loop of `Indent` removes from
a line longer than the detected indent: the detected indent under the guard of
the loop, else none. -/
def removedIndent (lines : List Str) : Nat :=
  if 0 < detectIndent lines ∧ detectIndent lines ≠ sentinel then (detectIndent lines).toNat
  else 0

/-- A string without its leading whitespace characters: runes are decoded and
removed from the front as long as they are whitespace; `skip` counts the bytes
of the current rune still to be passed. -/
def trimLeftGo : Nat → Str → Str
  | _, [] => []
  | 0, b :: rest =>
    if isSpace (decodeRune (b :: rest)).1 then trimLeftGo ((decodeRune (b :: rest)).2 - 1) rest
    else b :: rest
  | skip + 1, _ :: rest => trimLeftGo skip rest

/-- The string `s` with all of its leading whitespace characters removed. -/
def trimLeft (s : Str) : Str := trimLeftGo 0 s

/-! ## Lemmas: the standard library -/

theorem indexFuncGo_range (f : Nat → Bool) (s : Str) (i k : Nat) :
    indexFuncGo f i k s = -1 ∨
      ((i : Int) ≤ indexFuncGo f i k s ∧ indexFuncGo f i k s < (i : Int) + s.length) := by
  induction s generalizing i k with
  | nil => left; simp [indexFuncGo]
  | cons b rest ih =>
    cases k with
    | zero =>
      simp only [indexFuncGo]
      split
      · right; simp only [List.length_cons]; omega
      · rcases ih (i + 1) ((decodeRune (b :: rest)).2 - 1) with h | h
        · left; exact h
        · right; simp only [List.length_cons]; omega
    | succ k =>
      simp only [indexFuncGo]
      rcases ih (i + 1) k with h | h
      · left; exact h
      · right; simp only [List.length_cons]; omega

theorem indexFuncGo_shift (f : Nat → Bool) (s : Str) (i k c : Nat) :
    indexFuncGo f (i + c) k s =
      if indexFuncGo f i k s = -1 then -1 else indexFuncGo f i k s + c := by
  induction s generalizing i k with
  | nil => simp [indexFuncGo]
  | cons b rest ih =>
    cases k with
    | zero =>
      simp only [indexFuncGo]
      split
      · have : ¬ ((i : Int) = -1) := by omega
        simp [this]
      · have h := ih (i + 1) ((decodeRune (b :: rest)).2 - 1)
        rw [show i + c + 1 = i + 1 + c by omega]; exact h
    | succ k =>
      simp only [indexFuncGo]
      have h := ih (i + 1) k
      rw [show i + c + 1 = i + 1 + c by omega]; exact h

theorem splitLF_ne_nil (s : Str) : splitLF s ≠ [] := by
  cases s with
  | nil => simp [splitLF]
  | cons b rest =>
    simp only [splitLF]
    split
    · simp
    · split <;> simp

theorem splitLF_noLF (s : Str) : ∀ l ∈ splitLF s, LF ∉ l := by
  induction s with
  | nil => simp [splitLF]
  | cons b rest ih =>
    simp only [splitLF]
    split
    · intro l hl
      rcases List.mem_cons.1 hl with h | h
      · subst h; simp
      · exact ih l h
    · rename_i hb
      split
      · intro l hl; simp at hl; subst hl; simp; exact fun h => hb h.symm
      · rename_i l0 ls heq
        intro l hl
        rcases List.mem_cons.1 hl with h | h
        · subst h
          have := ih l0 (by rw [heq]; simp)
          simp only [List.mem_cons, not_or]
          exact ⟨fun h => hb h.symm, this⟩
        · exact ih l (by rw [heq]; simp [h])

theorem splitLF_append_noLF (l : Str) (hl : LF ∉ l) (t : Str) :
    splitLF (l ++ LF :: t) = l :: splitLF t := by
  induction l with
  | nil => simp [splitLF]
  | cons b rest ih =>
    simp only [List.mem_cons, not_or] at hl
    have hb : ¬ b = LF := fun h => hl.1 h.symm
    have e : splitLF (b :: (rest ++ LF :: t)) = (b :: rest) :: splitLF t := by
      simp only [splitLF, hb, if_false, ih hl.2]
    exact e

theorem splitLF_noLF_self (l : Str) (hl : LF ∉ l) : splitLF l = [l] := by
  induction l with
  | nil => simp [splitLF]
  | cons b rest ih =>
    simp only [List.mem_cons, not_or] at hl
    have hb : ¬ b = LF := fun h => hl.1 h.symm
    simp only [splitLF, hb, if_false, ih hl.2]

theorem splitLF_joinLF (ls : List Str) (hne : ls ≠ []) (h : ∀ l ∈ ls, LF ∉ l) :
    splitLF (joinLF ls) = ls := by
  induction ls with
  | nil => exact absurd rfl hne
  | cons l rest ih =>
    cases rest with
    | nil => simp only [joinLF]; exact splitLF_noLF_self l (h l (by simp))
    | cons l2 rest2 =>
      simp only [joinLF]
      rw [splitLF_append_noLF l (h l (by simp))]
      have := ih (by simp) (fun x hx => h x (by simp [hx]))
      simp only [joinLF] at this
      rw [this]

theorem splitLF_mem_bytes (s : Str) : ∀ l ∈ splitLF s, ∀ b ∈ l, b ∈ s := by
  induction s with
  | nil => simp [splitLF]
  | cons c rest ih =>
    simp only [splitLF]
    split
    · intro l hl b hb
      rcases List.mem_cons.1 hl with h | h
      · subst h; simp at hb
      · exact List.mem_cons_of_mem _ (ih l h b hb)
    · split
      · intro l hl b hb; simp at hl; subst hl; simp at hb; subst hb; simp
      · rename_i l0 ls heq
        intro l hl b hb
        rcases List.mem_cons.1 hl with h | h
        · subst h
          rcases List.mem_cons.1 hb with h2 | h2
          · subst h2; simp
          · exact List.mem_cons_of_mem _ (ih l0 (by rw [heq]; simp) b h2)
        · exact List.mem_cons_of_mem _ (ih l (by rw [heq]; simp [h]) b hb)

theorem splitLF_length_le (s : Str) : ∀ l ∈ splitLF s, l.length ≤ s.length := by
  induction s with
  | nil => simp [splitLF]
  | cons c rest ih =>
    simp only [splitLF]
    split
    · intro l hl
      rcases List.mem_cons.1 hl with h | h
      · subst h; simp
      · have := ih l h; simp only [List.length_cons]; omega
    · split
      · intro l hl; simp at hl; subst hl; simp
      · rename_i l0 ls heq
        intro l hl
        rcases List.mem_cons.1 hl with h | h
        · subst h
          have := ih l0 (by rw [heq]; simp)
          simp only [List.length_cons]; omega
        · have := ih l (by rw [heq]; simp [h])
          simp only [List.length_cons]; omega

theorem eolRepl_CR_LF (rest : Str) : eolRepl (CR :: LF :: rest) = LF :: eolRepl rest := by
  simp [eolRepl]

theorem eolRepl_CR_other (rest : Str) (h : rest.head? ≠ some LF) :
    eolRepl (CR :: rest) = LF :: eolRepl rest := by
  cases rest with
  | nil => simp [eolRepl]
  | cons c rest2 =>
    have hc : ¬ c = LF := fun e => h (by simp [e])
    simp [eolRepl, hc]

theorem eolRepl_other (b : Nat) (rest : Str) (h : b ≠ CR) :
    eolRepl (b :: rest) = b :: eolRepl rest := by
  cases rest with
  | nil => simp [eolRepl, h]
  | cons c rest2 => simp [eolRepl, h]

/-- Induction along the three moves of the replacer. -/
theorem eolRepl_ind {P : Str → Prop} (h0 : P [])
    (h1 : ∀ rest, P rest → P (CR :: LF :: rest))
    (h2 : ∀ rest, rest.head? ≠ some LF → P rest → P (CR :: rest))
    (h3 : ∀ b rest, b ≠ CR → P rest → P (b :: rest)) : ∀ s, P s := by
  intro s
  generalize hn : s.length = n
  induction n using Nat.strong_induction_on generalizing s with
  | _ n ih =>
    cases s with
    | nil => exact h0
    | cons b rest =>
      by_cases hb : b = CR
      · subst hb
        by_cases hr : rest.head? = some LF
        · cases rest with
          | nil => simp at hr
          | cons c rest2 =>
            simp at hr; subst hr
            exact h1 rest2 (ih rest2.length (by subst hn; simp only [List.length_cons]; omega) rest2 rfl)
        · exact h2 rest hr (ih rest.length (by subst hn; simp) rest rfl)
      · exact h3 b rest hb (ih rest.length (by subst hn; simp) rest rfl)

theorem eolRepl_noCR (s : Str) : CR ∉ eolRepl s := by
  induction s using eolRepl_ind with
  | h0 => simp [eolRepl]
  | h1 rest ih => rw [eolRepl_CR_LF]; simpa using ih
  | h2 rest hr ih => rw [eolRepl_CR_other rest hr]; simpa using ih
  | h3 b rest hb ih =>
    rw [eolRepl_other b rest hb]
    simp only [List.mem_cons, not_or]
    exact ⟨fun h => hb h.symm, ih⟩

theorem eolRepl_length_le (s : Str) : (eolRepl s).length ≤ s.length := by
  induction s using eolRepl_ind with
  | h0 => simp [eolRepl]
  | h1 rest ih => rw [eolRepl_CR_LF]; simp only [List.length_cons]; omega
  | h2 rest hr ih => rw [eolRepl_CR_other rest hr]; simp only [List.length_cons]; omega
  | h3 b rest hb ih => rw [eolRepl_other b rest hb]; simp only [List.length_cons]; omega

theorem eolRepl_of_noCR (s : Str) (h : CR ∉ s) : eolRepl s = s := by
  induction s with
  | nil => simp [eolRepl]
  | cons b rest ih =>
    simp only [List.mem_cons, not_or] at h
    rw [eolRepl_other b rest (fun e => h.1 e.symm), ih h.2]

/-! ## Lemmas: `split` -/

theorem dropFirstBlank_subset (ls : List Str) : ∀ l ∈ dropFirstBlank ls, l ∈ ls := by
  intro l hl
  unfold dropFirstBlank at hl
  split at hl
  · exact List.mem_of_mem_drop hl
  · exact hl

theorem dropLastBlank_subset (ls : List Str) : ∀ l ∈ dropLastBlank ls, l ∈ ls := by
  intro l hl
  unfold dropLastBlank at hl
  split at hl
  · exact List.mem_of_mem_take hl
  · exact hl

theorem split_subset (s : Str) : ∀ l ∈ split s, l ∈ splitLF (eolRepl s) :=
  fun l hl => dropFirstBlank_subset _ l (dropLastBlank_subset _ l hl)

theorem split_noLF (s : Str) : ∀ l ∈ split s, LF ∉ l :=
  fun l hl => splitLF_noLF _ l (split_subset s l hl)

theorem split_noCR (s : Str) : ∀ l ∈ split s, CR ∉ l :=
  fun l hl h => eolRepl_noCR s (splitLF_mem_bytes _ l (split_subset s l hl) CR h)

theorem split_length_le (s : Str) : ∀ l ∈ split s, l.length ≤ s.length :=
  fun l hl => le_trans (splitLF_length_le _ l (split_subset s l hl)) (eolRepl_length_le s)

/-! ## Lemmas: `Indent` -/

theorem indexNotSpace_range (l : Str) :
    indexNotSpace l = -1 ∨ (0 ≤ indexNotSpace l ∧ indexNotSpace l < l.length) := by
  have h := indexFuncGo_range isNotSpace l 0 0
  simp only [indexNotSpace, IndexFunc]
  rcases h with h | h
  · left; exact h
  · right; simpa using h

theorem isBlank_false_iff (l : Str) : IsBlank l = false ↔ 0 ≤ indexNotSpace l := by
  unfold IsBlank
  rcases indexNotSpace_range l with h | h
  · rw [h]; simp
  · constructor
    · intro _; exact h.1
    · intro _
      have : indexNotSpace l ≠ -1 := by omega
      simpa using this

theorem isBlank_true_iff (l : Str) : IsBlank l = true ↔ indexNotSpace l = -1 := by
  unfold IsBlank; simp

theorem detectIndent_eq (lines : List Str) :
    detectIndent lines = lines.foldl indentStep sentinel := rfl

theorem indentStep_le (init : Int) (l : Str) : indentStep init l ≤ init := by
  unfold indentStep; split <;> omega

theorem indentStep_lower (init : Int) (l : Str) (h : 0 ≤ indexNotSpace l) :
    indentStep init l ≤ indexNotSpace l := by
  unfold indentStep; split <;> omega

theorem foldl_indentStep_le (lines : List Str) (init : Int) :
    lines.foldl indentStep init ≤ init := by
  induction lines generalizing init with
  | nil => simp
  | cons l rest ih =>
    simp only [List.foldl_cons]
    exact le_trans (ih (indentStep init l)) (indentStep_le init l)

theorem foldl_indentStep_lower (lines : List Str) (init : Int) :
    ∀ l ∈ lines, 0 ≤ indexNotSpace l → lines.foldl indentStep init ≤ indexNotSpace l := by
  induction lines generalizing init with
  | nil => simp
  | cons l0 rest ih =>
    intro l hl h0
    simp only [List.foldl_cons]
    rcases List.mem_cons.1 hl with h | h
    · subst h
      exact le_trans (foldl_indentStep_le rest (indentStep init l)) (indentStep_lower init l h0)
    · exact ih _ l h h0

theorem foldl_indentStep_attained (lines : List Str) (init : Int) :
    lines.foldl indentStep init = init ∨
      ∃ l ∈ lines, 0 ≤ indexNotSpace l ∧ indexNotSpace l = lines.foldl indentStep init := by
  induction lines generalizing init with
  | nil => simp
  | cons l0 rest ih =>
    simp only [List.foldl_cons]
    rcases ih (indentStep init l0) with h | ⟨l, hl, h0, h1⟩
    · rw [h]
      unfold indentStep
      split
      · rename_i hc
        right; exact ⟨l0, by simp, hc.1, rfl⟩
      · left; rfl
    · right; exact ⟨l, by simp [hl], h0, h1⟩

theorem detectIndent_of_isMinIndent (lines : List Str) (m : Nat)
    (hm : IsMinIndent lines m) (hlt : (m : Int) < sentinel) : detectIndent lines = m := by
  obtain ⟨⟨l0, hl0, hb0, hi0⟩, hmin⟩ := hm
  rw [detectIndent_eq]
  have hle := foldl_indentStep_lower lines sentinel l0 hl0 (by omega)
  rcases foldl_indentStep_attained lines sentinel with h | ⟨l, hl, h0, h1⟩
  · omega
  · have := hmin l hl ((isBlank_false_iff l).2 h0)
    omega

theorem isMinIndent_lt_sentinel (s : Str) (m : Nat) (hlen : s.length ≤ maxLen)
    (hm : IsMinIndent (split s) m) : (m : Int) < sentinel := by
  obtain ⟨⟨l0, hl0, hb0, hi0⟩, _⟩ := hm
  have h1 := split_length_le s l0 hl0
  rcases indexNotSpace_range l0 with h | h
  · omega
  · have : (maxLen : Int) = sentinel := rfl
    omega

/-- C1: when the split lines hold a non-blank line and the minimum `m` of the
offsets of the first non-whitespace character over the non-blank lines is
positive, `Indent s` is the LF-join of the split lines in order, a line longer
than `m` losing its first `m` positions and every other line becoming empty.
(`s.length ≤ maxLen` is the bound every Go string meets.) -/
theorem Indent_eq_join_of_positive_min (s : Str) (m : Nat) (hlen : s.length ≤ maxLen)
    (hm : IsMinIndent (split s) m) (hpos : 0 < m) :
    Indent s = joinLF ((split s).map fun l => if l.length > m then l.drop m else []) := by
  have hd := detectIndent_of_isMinIndent (split s) m hm (isMinIndent_lt_sentinel s m hlen hm)
  have hlt := isMinIndent_lt_sentinel s m hlen hm
  obtain ⟨⟨l0, hl0, _, _⟩, _⟩ := hm
  have hne : ¬ (split s).length = 0 := by
    intro h
    rw [List.length_eq_zero] at h
    rw [h] at hl0; simp at hl0
  unfold Indent indentLines
  rw [if_neg hne, hd]
  have hc : (0 : Int) < (m : Int) ∧ (m : Int) ≠ sentinel := ⟨by omega, by omega⟩
  rw [if_pos hc]
  congr 1
  apply List.map_congr_left
  intro l _
  simp only [stripLine, Int.toNat_ofNat, gt_iff_lt, Nat.cast_lt]

/-- Witness of C1 at the input "\n\t  F\n \n\t    S\n\t" (minimum indent 3). -/
theorem Indent_eq_join_of_positive_min_witness :
    Indent [10, 9, 32, 32, 70, 10, 32, 10, 9, 32, 32, 32, 32, 83, 10, 9] =
      joinLF ((split [10, 9, 32, 32, 70, 10, 32, 10, 9, 32, 32, 32, 32, 83, 10, 9]).map
        fun l => if l.length > 3 then l.drop 3 else []) :=
  Indent_eq_join_of_positive_min [10, 9, 32, 32, 70, 10, 32, 10, 9, 32, 32, 32, 32, 83, 10, 9] 3
    (by decide) ⟨⟨[9, 32, 32, 70], by decide, by decide, by decide⟩, by decide⟩ (by decide)

/-! ## Lemmas: `Margin` -/

theorem indexGo_first (d : Str) (line : Str) (i j : Nat) (hocc : d <+: line.drop j)
    (hfirst : ∀ t < j, ¬ d <+: line.drop t) : indexGo d i line = (i : Int) + j := by
  induction line generalizing i j with
  | nil =>
    cases j with
    | zero => simp only [List.drop_nil] at hocc; simp [indexGo, List.isPrefixOf_iff_prefix, hocc]
    | succ j => exact absurd (by simpa using hocc) (hfirst 0 (by omega))
  | cons b rest ih =>
    cases j with
    | zero =>
      simp only [List.drop_zero] at hocc
      simp [indexGo, List.isPrefixOf_iff_prefix, hocc]
    | succ j =>
      have h0 : ¬ d <+: b :: rest := by simpa using hfirst 0 (by omega)
      have h0b : d.isPrefixOf (b :: rest) = false := by
        rw [Bool.eq_false_iff, Ne, List.isPrefixOf_iff_prefix]; exact h0
      simp only [indexGo, h0b]
      have := ih (i + 1) j (by simpa using hocc)
        (fun t ht => by simpa using hfirst (t + 1) (by omega))
      rw [this]; push_cast; omega

theorem indexGo_absent (d : Str) (line : Str) (i : Nat)
    (h : ∀ t, ¬ d <+: line.drop t) : indexGo d i line = -1 := by
  induction line generalizing i with
  | nil =>
    have h0 : ¬ d <+: [] := by simpa using h 0
    have h0b : d.isPrefixOf [] = false := by
      rw [Bool.eq_false_iff, Ne, List.isPrefixOf_iff_prefix]; exact h0
    simp [indexGo, h0b]
  | cons b rest ih =>
    have h0 : ¬ d <+: b :: rest := by simpa using h 0
    have h0b : d.isPrefixOf (b :: rest) = false := by
      rw [Bool.eq_false_iff, Ne, List.isPrefixOf_iff_prefix]; exact h0
    simp only [indexGo, h0b]
    exact ih (i + 1) (fun t => by simpa using h (t + 1))

theorem marginLine_noLF (d line : Str) (h : LF ∉ line) : LF ∉ marginLine d line := by
  unfold marginLine
  split
  · split
    · exact fun hm => h (List.mem_of_mem_drop hm)
    · exact h
  · exact h

theorem splitLF_Margin (s d : Str) (hne : split s ≠ []) :
    splitLF (Margin s d) = (split s).map (marginLine (resolvePrefix d)) := by
  unfold Margin
  apply splitLF_joinLF
  · simpa using hne
  · intro l hl
    obtain ⟨l0, hl0, rfl⟩ := List.mem_map.1 hl
    exact marginLine_noLF _ _ (split_noLF s l0 hl0)

theorem Margin_getElem (s d : Str) (k : Nat) (line : Str) (hk : (split s)[k]? = some line) :
    (splitLF (Margin s d))[k]? = some (marginLine (resolvePrefix d) line) := by
  have hne : split s ≠ [] := by
    intro h; rw [h] at hk; simp at hk
  rw [splitLF_Margin s d hne, List.getElem?_map, hk]; rfl

/-- C2: with the delimiter `d` (`"|"` when empty), a line of `split s` in which
`d` occurs, first at offset `j`, with only whitespace before that occurrence,
appears in `Margin s d` at the same position as exactly its remainder after
offset `j + len(d)`. -/
theorem Margin_strips_marked_line (s d : Str) (k j : Nat) (line : Str)
    (hk : (split s)[k]? = some line)
    (hocc : resolvePrefix d <+: line.drop j)
    (hfirst : ∀ t < j, ¬ resolvePrefix d <+: line.drop t)
    (hblank : IsBlank (line.take j) = true) :
    (splitLF (Margin s d))[k]? = some (line.drop (j + (resolvePrefix d).length)) := by
  rw [Margin_getElem s d k line hk]
  have hi : Index line (resolvePrefix d) = (j : Int) := by
    have := indexGo_first (resolvePrefix d) line 0 j hocc hfirst
    simpa [Index] using this
  unfold marginLine
  rw [hi]
  simp [hblank]

/-- Witness of C2: the line `"  > A"` of the input "\n  > A\nB > C\n" with the
delimiter `"> "`. -/
theorem Margin_strips_marked_line_witness :
    (splitLF (Margin [10, 32, 32, 62, 32, 65, 10, 66, 32, 62, 32, 67, 10] [62, 32]))[0]? =
      some ([32, 32, 62, 32, 65].drop (2 + (resolvePrefix [62, 32]).length)) :=
  Margin_strips_marked_line [10, 32, 32, 62, 32, 65, 10, 66, 32, 62, 32, 67, 10] [62, 32] 0 2
    [32, 32, 62, 32, 65] (by decide) (by decide) (by decide) (by decide)

/-- C3: with the delimiter `d` (`"|"` when empty), a line of `split s` that
does not contain `d`, or that has a non-whitespace character before the first
occurrence of `d`, appears unmodified at the same position in `Margin s d`. -/
theorem Margin_keeps_unmarked_line (s d : Str) (k : Nat) (line : Str)
    (hk : (split s)[k]? = some line)
    (h : (∀ t, ¬ resolvePrefix d <+: line.drop t) ∨
      ∃ j, resolvePrefix d <+: line.drop j ∧ (∀ t < j, ¬ resolvePrefix d <+: line.drop t) ∧
        IsBlank (line.take j) = false) :
    (splitLF (Margin s d))[k]? = some line := by
  rw [Margin_getElem s d k line hk]
  rcases h with h | ⟨j, hocc, hfirst, hnb⟩
  · have hi : Index line (resolvePrefix d) = -1 := indexGo_absent _ line 0 h
    unfold marginLine
    rw [hi]; simp
  · have hi : Index line (resolvePrefix d) = (j : Int) := by
      have := indexGo_first (resolvePrefix d) line 0 j hocc hfirst
      simpa [Index] using this
    unfold marginLine
    rw [hi]
    simp [hnb]

/-- Witness of C3: the line `"B > C"` of the input "\n  > A\nB > C\n" with the
delimiter `"> "`, whose occurrence at offset 2 follows the letter `B`. -/
theorem Margin_keeps_unmarked_line_witness :
    (splitLF (Margin [10, 32, 32, 62, 32, 65, 10, 66, 32, 62, 32, 67, 10] [62, 32]))[1]? =
      some [66, 32, 62, 32, 67] :=
  Margin_keeps_unmarked_line [10, 32, 32, 62, 32, 65, 10, 66, 32, 62, 32, 67, 10] [62, 32] 1
    [66, 32, 62, 32, 67] (by decide)
    (Or.inr ⟨2, by decide, by decide, by decide⟩)

/-! ## `IsBlank` -/

theorem indexFuncGo_eq_neg_one_iff (f : Nat → Bool) (s : Str) (i k : Nat) :
    indexFuncGo f i k s = -1 ↔ ∀ r ∈ runesGo k s, f r = false := by
  induction s generalizing i k with
  | nil => simp [indexFuncGo, runesGo]
  | cons b rest ih =>
    cases k with
    | zero =>
      simp only [indexFuncGo, runesGo, List.mem_cons, forall_eq_or_imp]
      split
      · rename_i hf
        constructor
        · intro h; omega
        · intro h; rw [h.1] at hf; exact absurd hf (by simp)
      · rename_i hf
        rw [ih]
        constructor
        · intro h; exact ⟨by simpa using hf, h⟩
        · intro h; exact h.2
    | succ k =>
      simp only [indexFuncGo, runesGo]
      exact ih (i + 1) k

/-- C4: `IsBlank s` is true exactly when every character of `s` is a Unicode
whitespace character; `IsBlank ""` is true, and `IsBlank s` is false as soon as
`s` holds a non-whitespace character. -/
theorem IsBlank_iff_all_space (s : Str) :
    (IsBlank s = true ↔ ∀ r ∈ runes s, isSpace r = true) ∧ IsBlank [] = true ∧
      ((∃ r ∈ runes s, isSpace r = false) → IsBlank s = false) := by
  have key : ∀ t : Str, IsBlank t = true ↔ ∀ r ∈ runes t, isSpace r = true := by
    intro t
    rw [isBlank_true_iff]
    unfold indexNotSpace IndexFunc runes
    rw [indexFuncGo_eq_neg_one_iff]
    simp [isNotSpace]
  refine ⟨key s, by decide, ?_⟩
  rintro ⟨r, hr, hs⟩
  cases hb : IsBlank s with
  | false => rfl
  | true =>
    have := (key s).1 hb r hr
    rw [hs] at this; exact absurd this (by simp)

/-! ## Lemmas: cutting a line inside its leading whitespace -/

theorem decodeRune_cont (b : Nat) (rest : Str) :
    (rest.take ((decodeRune (b :: rest)).2 - 1)).all isCont = true := by
  rcases rest with _ | ⟨b1, _ | ⟨b2, _ | ⟨b3, r3⟩⟩⟩ <;> simp only [decodeRune] <;>
    split_ifs <;> simp_all

theorem decodeRune_of_cont (b : Nat) (rest : Str) (h : isCont b = true) :
    decodeRune (b :: rest) = (runeError, 1) := by
  unfold isCont at h
  simp only [Bool.and_eq_true, decide_eq_true_eq] at h
  simp only [decodeRune]
  rw [if_neg (by omega), if_neg (by omega), if_neg (by omega), if_neg (by omega)]

theorem indexFuncGo_neg_one_indep (f : Nat → Bool) (s : Str) (i i2 k : Nat)
    (h : indexFuncGo f i k s ≠ -1) : indexFuncGo f i2 k s ≠ -1 := by
  rw [Ne, indexFuncGo_eq_neg_one_iff] at h ⊢
  exact h

theorem indexFuncGo_drop_found (f : Nat → Bool) (s : Str) (i k j : Nat)
    (h : indexFuncGo f i k s = (i : Int) + j) : indexFuncGo f 0 0 (s.drop j) = 0 := by
  induction s generalizing i k j with
  | nil => simp [indexFuncGo] at h; omega
  | cons b rest ih =>
    cases k with
    | zero =>
      simp only [indexFuncGo] at h
      split at h
      · rename_i hf
        have hj : j = 0 := by omega
        subst hj
        simp [indexFuncGo, hf]
      · rcases indexFuncGo_range f rest (i + 1) ((decodeRune (b :: rest)).2 - 1) with h2 | h2
        · omega
        · cases j with
          | zero => omega
          | succ j =>
            simp only [List.drop_succ_cons]
            exact ih (i + 1) _ j (by rw [h]; push_cast; omega)
    | succ k =>
      simp only [indexFuncGo] at h
      rcases indexFuncGo_range f rest (i + 1) k with h2 | h2
      · omega
      · cases j with
        | zero => omega
        | succ j =>
          simp only [List.drop_succ_cons]
          exact ih (i + 1) _ j (by rw [h]; push_cast; omega)

theorem indexFuncGo_drop_nonblank (s : Str) (i k j m : Nat)
    (hk : (s.take k).all isCont = true)
    (h : indexFuncGo isNotSpace i k s = (i : Int) + j) (hm : m ≤ j) :
    indexFuncGo isNotSpace 0 0 (s.drop m) ≠ -1 := by
  induction s generalizing i k j m with
  | nil => simp [indexFuncGo] at h; omega
  | cons b rest ih =>
    cases m with
    | zero =>
      simp only [List.drop_zero]
      cases k with
      | zero => exact indexFuncGo_neg_one_indep _ _ i 0 0 (by rw [h]; omega)
      | succ k =>
        have hb : isCont b = true := by
          simp only [List.take_succ_cons, List.all_cons, Bool.and_eq_true] at hk
          exact hk.1
        simp only [indexFuncGo, decodeRune_of_cont b rest hb]
        have : isNotSpace runeError = true := by decide
        simp [this]
    | succ m =>
      simp only [List.drop_succ_cons]
      cases j with
      | zero => omega
      | succ j =>
        cases k with
        | zero =>
          simp only [indexFuncGo] at h
          split at h
          · omega
          · exact ih (i + 1) _ j m (decodeRune_cont b rest) (by rw [h]; push_cast; omega)
              (by omega)
        | succ k =>
          simp only [indexFuncGo] at h
          have hk2 : (rest.take k).all isCont = true := by
            simp only [List.take_succ_cons, List.all_cons, Bool.and_eq_true] at hk
            exact hk.2
          exact ih (i + 1) k j m hk2 (by rw [h]; push_cast; omega) (by omega)

theorem indexNotSpace_drop_self (l : Str) (j : Nat) (h : indexNotSpace l = (j : Int)) :
    indexNotSpace (l.drop j) = 0 := by
  unfold indexNotSpace IndexFunc at h ⊢
  exact indexFuncGo_drop_found isNotSpace l 0 0 j (by rw [h]; simp)

theorem isBlank_drop_false (l : Str) (m : Nat) (h0 : 0 ≤ indexNotSpace l)
    (hm : (m : Int) ≤ indexNotSpace l) : IsBlank (l.drop m) = false := by
  obtain ⟨j, hj⟩ := Int.eq_ofNat_of_zero_le h0
  have := indexFuncGo_drop_nonblank l 0 0 j m (by simp)
    (by unfold indexNotSpace IndexFunc at hj; rw [hj]; simp) (by omega)
  unfold IsBlank indexNotSpace IndexFunc
  simpa using this

/-! ## Lemmas: the output lines -/

theorem joinLF_cons_cons (l l2 : Str) (ls : List Str) :
    joinLF (l :: l2 :: ls) = l ++ LF :: joinLF (l2 :: ls) := rfl

theorem joinLF_mem (ls : List Str) (b : Nat) (h : b ∈ joinLF ls) :
    b = LF ∨ ∃ l ∈ ls, b ∈ l := by
  induction ls with
  | nil => simp [joinLF] at h
  | cons l rest ih =>
    cases rest with
    | nil => right; exact ⟨l, by simp, by simpa [joinLF] using h⟩
    | cons l2 rest2 =>
      rw [joinLF_cons_cons, List.mem_append, List.mem_cons] at h
      rcases h with h | h | h
      · right; exact ⟨l, by simp, h⟩
      · left; exact h
      · rcases ih h with h2 | ⟨x, hx, hb⟩
        · left; exact h2
        · right; exact ⟨x, List.mem_cons_of_mem _ hx, hb⟩

theorem joinLF_noCR (ls : List Str) (h : ∀ l ∈ ls, CR ∉ l) : CR ∉ joinLF ls := by
  intro hc
  rcases joinLF_mem ls CR hc with h2 | ⟨l, hl, hb⟩
  · exact absurd h2 (by decide)
  · exact h l hl hb

theorem dropFirstBlank_of_head (ls : List Str) (a : Str) (h : ls.head? = some a)
    (hb : IsBlank a = false) : dropFirstBlank ls = ls := by
  cases ls with
  | nil => simp at h
  | cons x rest =>
    simp at h; subst h
    simp [dropFirstBlank, hb]

theorem dropLastBlank_of_last (ls : List Str) (a : Str) (h : ls.getLast? = some a)
    (hb : IsBlank a = false) : dropLastBlank ls = ls := by
  have hne : ls ≠ [] := by intro e; rw [e] at h; simp at h
  have hpos : 0 < ls.length := List.length_pos.2 hne
  rw [List.getLast?_eq_getElem?] at h
  have hidx : ((ls.length : Int) - 1).toNat = ls.length - 1 := by omega
  unfold dropLastBlank
  rw [hidx]
  have hg : ls.getD (ls.length - 1) [] = a := by
    rw [List.getD_eq_getElem?_getD, h]; rfl
  rw [hg, hb]
  simp

theorem split_joinLF (ls : List Str) (a z : Str) (hh : ls.head? = some a)
    (hl : ls.getLast? = some z) (ha : IsBlank a = false) (hz : IsBlank z = false)
    (hLF : ∀ l ∈ ls, LF ∉ l) (hCR : ∀ l ∈ ls, CR ∉ l) : split (joinLF ls) = ls := by
  have hne : ls ≠ [] := by intro e; rw [e] at hh; simp at hh
  unfold split
  rw [eolRepl_of_noCR _ (joinLF_noCR ls hCR), splitLF_joinLF ls hne hLF,
    dropFirstBlank_of_head ls a hh ha, dropLastBlank_of_last ls z hl hz]

theorem stripLine_suffix (indent : Int) (l : Str) : stripLine indent l <:+ l := by
  unfold stripLine
  split
  · exact List.drop_suffix _ _
  · exact List.nil_suffix

theorem indentLines_eq_map (lines : List Str) :
    indentLines lines = lines.map fun l =>
      if 0 < detectIndent lines ∧ detectIndent lines ≠ sentinel then
        stripLine (detectIndent lines) l
      else l := by
  unfold indentLines
  split
  · rfl
  · simp

theorem indentLines_suffix (lines : List Str) :
    ∀ o ∈ indentLines lines, ∃ l ∈ lines, o <:+ l := by
  intro o ho
  rw [indentLines_eq_map] at ho
  obtain ⟨l, hl, rfl⟩ := List.mem_map.1 ho
  refine ⟨l, hl, ?_⟩
  split
  · exact stripLine_suffix _ l
  · exact List.suffix_refl l

theorem indentLines_ne_nil (lines : List Str) (h : lines ≠ []) : indentLines lines ≠ [] := by
  rw [indentLines_eq_map]; simpa using h

theorem splitLF_Indent (s : Str) (hne : split s ≠ []) :
    splitLF (Indent s) = indentLines (split s) := by
  unfold Indent
  rw [if_neg (by simpa using hne)]
  apply splitLF_joinLF _ (indentLines_ne_nil _ hne)
  intro o ho hc
  obtain ⟨l, hl, hs⟩ := indentLines_suffix _ o ho
  exact split_noLF s l hl (hs.subset hc)

/-- The detected indent is at most the offset found in any non-blank line. -/
theorem detectIndent_le_of_nonblank (lines : List Str) (l : Str) (hl : l ∈ lines)
    (h0 : 0 ≤ indexNotSpace l) : detectIndent lines ≤ indexNotSpace l :=
  foldl_indentStep_lower lines sentinel l hl h0

theorem detectIndent_nonneg (lines : List Str) : 0 ≤ detectIndent lines := by
  rcases foldl_indentStep_attained lines sentinel with h | ⟨l, _, h0, h1⟩
  · rw [detectIndent_eq, h]; decide
  · rw [detectIndent_eq, ← h1]; exact h0

theorem stripLine_of_nonblank (lines : List Str) (l : Str) (hl : l ∈ lines)
    (h0 : 0 ≤ indexNotSpace l) :
    stripLine (detectIndent lines) l = l.drop (detectIndent lines).toNat := by
  have h1 := detectIndent_le_of_nonblank lines l hl h0
  rcases indexNotSpace_range l with h | h
  · omega
  · unfold stripLine
    rw [if_pos (by omega)]

theorem indentLine_nonblank (lines : List Str) (l : Str) (hl : l ∈ lines)
    (hb : IsBlank l = false) :
    IsBlank (if 0 < detectIndent lines ∧ detectIndent lines ≠ sentinel then
      stripLine (detectIndent lines) l else l) = false := by
  have h0 := (isBlank_false_iff l).1 hb
  split
  · rw [stripLine_of_nonblank lines l hl h0]
    have h1 := detectIndent_le_of_nonblank lines l hl h0
    have h2 := detectIndent_nonneg lines
    exact isBlank_drop_false l _ h0 (by omega)
  · exact hb

theorem indentLines_of_not (lines : List Str)
    (h : ¬ (0 < detectIndent lines ∧ detectIndent lines ≠ sentinel)) :
    indentLines lines = lines := by
  unfold indentLines; rw [if_neg h]

theorem indentLines_idem (lines : List Str) :
    indentLines (indentLines lines) = indentLines lines := by
  by_cases hc : 0 < detectIndent lines ∧ detectIndent lines ≠ sentinel
  · have hO : indentLines lines = lines.map (stripLine (detectIndent lines)) := by
      unfold indentLines; rw [if_pos hc]
    rcases foldl_indentStep_attained lines sentinel with h | ⟨l, hl, h0, h1⟩
    · exact absurd (by rw [detectIndent_eq]; exact h) hc.2
    · rw [← detectIndent_eq] at h1
      have hmem : stripLine (detectIndent lines) l ∈ indentLines lines := by
        rw [hO]; exact List.mem_map_of_mem _ hl
      have hidx : indexNotSpace (stripLine (detectIndent lines) l) = 0 := by
        rw [stripLine_of_nonblank lines l hl h0]
        apply indexNotSpace_drop_self
        rw [h1]; omega
      have hle := detectIndent_le_of_nonblank (indentLines lines) _ hmem (by omega)
      rw [hidx] at hle
      have hn : ¬ (0 < detectIndent (indentLines lines) ∧
          detectIndent (indentLines lines) ≠ sentinel) := by omega
      exact indentLines_of_not _ hn
  · have hO : indentLines lines = lines := indentLines_of_not _ hc
    rw [hO, hO]

/-- `Indent` of its own output changes nothing when the lines it worked on
begin and end with a non-blank line. -/
theorem Indent_joinLF_indentLines (lines : List Str) (a z : Str)
    (hh : lines.head? = some a) (hl : lines.getLast? = some z)
    (ha : IsBlank a = false) (hz : IsBlank z = false)
    (hLF : ∀ l ∈ lines, LF ∉ l) (hCR : ∀ l ∈ lines, CR ∉ l) :
    Indent (joinLF (indentLines lines)) = joinLF (indentLines lines) := by
  have hne : lines ≠ [] := by intro e; rw [e] at hh; simp at hh
  have hsplit : split (joinLF (indentLines lines)) = indentLines lines := by
    have hmap := indentLines_eq_map lines
    apply split_joinLF (indentLines lines) _ _ (by rw [hmap, List.head?_map, hh]; rfl)
      (by rw [hmap, List.getLast?_map, hl]; rfl)
      (indentLine_nonblank lines a (List.mem_of_mem_head? hh) ha)
      (indentLine_nonblank lines z (List.mem_of_mem_getLast? hl) hz)
    · intro o ho hc
      obtain ⟨l, hl, hs⟩ := indentLines_suffix _ o ho
      exact hLF l hl (hs.subset hc)
    · intro o ho hc
      obtain ⟨l, hl, hs⟩ := indentLines_suffix _ o ho
      exact hCR l hl (hs.subset hc)
  have hne2 := indentLines_ne_nil lines hne
  conv_lhs => unfold Indent
  rw [hsplit, if_neg (by simpa using hne2), indentLines_idem]

/-- C5, as stated, fails: on the input "\n\nA" the first pass returns "\nA"
(`split` removes one blank first line only) and the second pass returns "A". -/
theorem Indent_not_idempotent :
    Indent (Indent [10, 10, 65]) ≠ Indent [10, 10, 65] := by decide

/-- C5, amended: `Indent (Indent s) = Indent s` for every `s` whose split line
sequence is empty or begins and ends with a non-blank line. -/
theorem Indent_idempotent_of_trimmed (s : Str)
    (h : split s = [] ∨ ∃ a z, (split s).head? = some a ∧ (split s).getLast? = some z ∧
      IsBlank a = false ∧ IsBlank z = false) :
    Indent (Indent s) = Indent s := by
  rcases h with h | ⟨a, z, hh, hl, ha, hz⟩
  · have : Indent s = [] := by unfold Indent; rw [h]; rfl
    rw [this]; decide
  · have hne : split s ≠ [] := by intro e; rw [e] at hh; simp at hh
    have hI : Indent s = joinLF (indentLines (split s)) := by
      unfold Indent; rw [if_neg (by simpa using hne)]
    rw [hI]
    exact Indent_joinLF_indentLines (split s) a z hh hl ha hz (split_noLF s) (split_noCR s)

/-- Witness of the amended C5 at the input "\n\t A\n\n\t  B\n". -/
theorem Indent_idempotent_of_trimmed_witness :
    Indent (Indent [10, 9, 32, 65, 10, 10, 9, 32, 32, 66, 10]) =
      Indent [10, 9, 32, 65, 10, 10, 9, 32, 32, 66, 10] :=
  Indent_idempotent_of_trimmed [10, 9, 32, 65, 10, 10, 9, 32, 32, 66, 10]
    (Or.inr ⟨[9, 32, 65], [9, 32, 32, 66], by decide, by decide, by decide, by decide⟩)

/-- C6: neither `Indent s` nor `Margin s d` holds a carriage return, whatever
line ends the input uses. -/
theorem output_has_no_CR (s d : Str) : CR ∉ Indent s ∧ CR ∉ Margin s d := by
  constructor
  · unfold Indent
    split
    · simp
    · apply joinLF_noCR
      intro o ho hc
      obtain ⟨l, hl, hs⟩ := indentLines_suffix _ o ho
      exact split_noCR s l hl (hs.subset hc)
  · unfold Margin
    apply joinLF_noCR
    intro o ho hc
    obtain ⟨l, hl, rfl⟩ := List.mem_map.1 ho
    have hl2 := split_noCR s l hl
    unfold marginLine at hc
    split at hc
    · split at hc
      · exact hl2 (List.mem_of_mem_drop hc)
      · exact hl2 hc
    · exact hl2 hc

/-! ## Line-ending style -/

theorem eolRepl_toCRLF (s : Str) (h : CR ∉ s) : eolRepl (toCRLF s) = s := by
  induction s with
  | nil => simp [toCRLF, eolRepl]
  | cons b rest ih =>
    simp only [List.mem_cons, not_or] at h
    simp only [toCRLF]
    split
    · rename_i hb
      rw [eolRepl_CR_LF, ih h.2, hb]
    · rw [eolRepl_other b _ (fun e => h.1 e.symm), ih h.2]

theorem toCR_noLF (s : Str) : LF ∉ toCR s := by
  induction s with
  | nil => simp [toCR]
  | cons b rest ih =>
    simp only [toCR]
    split
    · simp only [List.mem_cons, not_or]; exact ⟨by decide, ih⟩
    · rename_i hb
      simp only [List.mem_cons, not_or]; exact ⟨fun e => hb e.symm, ih⟩

theorem eolRepl_toCR (s : Str) (h : CR ∉ s) : eolRepl (toCR s) = s := by
  induction s with
  | nil => simp [toCR, eolRepl]
  | cons b rest ih =>
    simp only [List.mem_cons, not_or] at h
    simp only [toCR]
    split
    · rename_i hb
      have hh : (toCR rest).head? ≠ some LF := by
        intro e
        exact toCR_noLF rest (List.mem_of_mem_head? e)
      rw [eolRepl_CR_other _ hh, ih h.2, hb]
    · rw [eolRepl_other b _ (fun e => h.1 e.symm), ih h.2]

theorem split_congr (s t : Str) (h : eolRepl s = eolRepl t) : split s = split t := by
  unfold split; rw [h]

/-- C8: for a string `s` without CR and any delimiter `d`, writing every line
end as CRLF or as a bare CR changes neither `Indent s` nor `Margin s d`. -/
theorem line_ending_style_irrelevant (s d : Str) (h : CR ∉ s) :
    Indent (toCRLF s) = Indent s ∧ Indent (toCR s) = Indent s ∧
      Margin (toCRLF s) d = Margin s d ∧ Margin (toCR s) d = Margin s d := by
  have h1 : split (toCRLF s) = split s :=
    split_congr _ _ (by rw [eolRepl_toCRLF s h, eolRepl_of_noCR s h])
  have h2 : split (toCR s) = split s :=
    split_congr _ _ (by rw [eolRepl_toCR s h, eolRepl_of_noCR s h])
  refine ⟨?_, ?_, ?_, ?_⟩
  · unfold Indent; rw [h1]
  · unfold Indent; rw [h2]
  · unfold Margin; rw [h1]
  · unfold Margin; rw [h2]

/-- Witness of C8 at the input "\n  A\n  | B\n" with the delimiter `"|"`. -/
theorem line_ending_style_irrelevant_witness :
    Indent (toCRLF [10, 32, 32, 65, 10, 32, 32, 124, 32, 66, 10]) =
        Indent [10, 32, 32, 65, 10, 32, 32, 124, 32, 66, 10] ∧
      Indent (toCR [10, 32, 32, 65, 10, 32, 32, 124, 32, 66, 10]) =
        Indent [10, 32, 32, 65, 10, 32, 32, 124, 32, 66, 10] ∧
      Margin (toCRLF [10, 32, 32, 65, 10, 32, 32, 124, 32, 66, 10]) [124] =
        Margin [10, 32, 32, 65, 10, 32, 32, 124, 32, 66, 10] [124] ∧
      Margin (toCR [10, 32, 32, 65, 10, 32, 32, 124, 32, 66, 10]) [124] =
        Margin [10, 32, 32, 65, 10, 32, 32, 124, 32, 66, 10] [124] :=
  line_ending_style_irrelevant [10, 32, 32, 65, 10, 32, 32, 124, 32, 66, 10] [124] (by decide)

/-- C9: the empty delimiter selects the default: `Margin s "" = Margin s "|"`. -/
theorem Margin_default_delimiter (s : Str) : Margin s [] = Margin s [0x7C] := by
  unfold Margin resolvePrefix
  simp

/-! ## Blank lines and the detected indent -/

theorem foldl_indentStep_congr (xs ys : List Str) (init : Int)
    (h : xs.map indexNotSpace = ys.map indexNotSpace) :
    xs.foldl indentStep init = ys.foldl indentStep init := by
  induction xs generalizing ys init with
  | nil =>
    cases ys with
    | nil => rfl
    | cons y ys => simp at h
  | cons x xs ih =>
    cases ys with
    | nil => simp at h
    | cons y ys =>
      simp only [List.map_cons, List.cons.injEq] at h
      simp only [List.foldl_cons]
      have : indentStep init x = indentStep init y := by
        unfold indentStep; rw [h.1]
      rw [this]
      exact ih ys _ h.2

theorem sameUpToBlank_index (xs ys : List Str) (h : SameUpToBlank xs ys) :
    xs.map indexNotSpace = ys.map indexNotSpace := by
  apply List.ext_getElem?
  intro k
  rw [List.getElem?_map, List.getElem?_map]
  by_cases hk : k < xs.length
  · have hk2 : k < ys.length := by rw [← h.1]; exact hk
    have hx : xs[k]? = some xs[k] := List.getElem?_eq_getElem hk
    have hy : ys[k]? = some ys[k] := List.getElem?_eq_getElem hk2
    rw [hx, hy]
    simp only [Option.map_some']
    congr 1
    rcases h.2 k _ _ hx hy with e | ⟨ea, eb⟩
    · rw [e]
    · rw [(isBlank_true_iff _).1 ea, (isBlank_true_iff _).1 eb]
  · have hk2 : ¬ k < ys.length := by rw [← h.1]; exact hk
    rw [List.getElem?_eq_none (by omega), List.getElem?_eq_none (by omega)]

theorem detectIndent_sameUpToBlank (xs ys : List Str) (h : SameUpToBlank xs ys) :
    detectIndent xs = detectIndent ys := by
  rw [detectIndent_eq, detectIndent_eq]
  exact foldl_indentStep_congr xs ys sentinel (sameUpToBlank_index xs ys h)

/-- C10: blank lines do not influence the detected indent: when the split line
sequences of two inputs have the same length, are identical at every position
holding a non-blank line and hold blank lines elsewhere, `Indent` yields the
same output line at every position holding a non-blank line. -/
theorem Indent_blank_lines_irrelevant (s1 s2 : Str) (k : Nat) (l : Str)
    (h : SameUpToBlank (split s1) (split s2))
    (hk : (split s1)[k]? = some l) (hb : IsBlank l = false) :
    ∃ o, (splitLF (Indent s1))[k]? = some o ∧ (splitLF (Indent s2))[k]? = some o := by
  have hne1 : split s1 ≠ [] := by intro e; rw [e] at hk; simp at hk
  have hlen : k < (split s2).length := by
    rw [← h.1]
    exact (List.getElem?_eq_some_iff.1 hk).1
  have hne2 : split s2 ≠ [] := by intro e; rw [e] at hlen; simp at hlen
  have hy : (split s2)[k]? = some (split s2)[k] := List.getElem?_eq_getElem hlen
  have hk2 : (split s2)[k]? = some l := by
    rcases h.2 k _ _ hk hy with e | ⟨ea, _⟩
    · rw [hy, e]
    · rw [hb] at ea; exact absurd ea (by simp)
  refine ⟨if 0 < detectIndent (split s2) ∧ detectIndent (split s2) ≠ sentinel then
    stripLine (detectIndent (split s2)) l else l, ?_, ?_⟩
  · rw [splitLF_Indent s1 hne1, indentLines_eq_map, List.getElem?_map, hk,
      detectIndent_sameUpToBlank _ _ h]
    rfl
  · rw [splitLF_Indent s2 hne2, indentLines_eq_map, List.getElem?_map, hk2]
    rfl

/-- Witness of C10: the inputs "\n  A\n \n   B\n" and "\n  A\n\t\t\t\t\n   B\n"
differ in their blank middle line only. -/
theorem Indent_blank_lines_irrelevant_witness :
    ∃ o, (splitLF (Indent [10, 32, 32, 65, 10, 32, 10, 32, 32, 32, 66, 10]))[2]? = some o ∧
      (splitLF (Indent [10, 32, 32, 65, 10, 9, 9, 9, 9, 10, 32, 32, 32, 66, 10]))[2]? = some o :=
  Indent_blank_lines_irrelevant [10, 32, 32, 65, 10, 32, 10, 32, 32, 32, 66, 10]
    [10, 32, 32, 65, 10, 9, 9, 9, 9, 10, 32, 32, 32, 66, 10] 2 [32, 32, 32, 66]
    ⟨by decide, by
      intro k a b ha hb
      have hk : k < 3 := (List.getElem?_eq_some_iff.1 ha).1
      have e1 : split [10, 32, 32, 65, 10, 32, 10, 32, 32, 32, 66, 10] =
        [[32, 32, 65], [32], [32, 32, 32, 66]] := by decide
      have e2 : split [10, 32, 32, 65, 10, 9, 9, 9, 9, 10, 32, 32, 32, 66, 10] =
        [[32, 32, 65], [9, 9, 9, 9], [32, 32, 32, 66]] := by decide
      rw [e1] at ha; rw [e2] at hb
      have hcases : k = 0 ∨ k = 1 ∨ k = 2 := by omega
      rcases hcases with rfl | rfl | rfl
      · simp at ha hb; left; rw [← ha, ← hb]
      · simp at ha hb; right; rw [← ha, ← hb]; exact ⟨by decide, by decide⟩
      · simp at ha hb; left; rw [← ha, ← hb]⟩
    (by decide) (by decide)

/-! ## The line-ending normalizer -/

theorem replaceCRLF_CR_LF (rest : Str) :
    replaceCRLF (CR :: LF :: rest) = LF :: replaceCRLF rest := by
  simp [replaceCRLF]

theorem replaceCRLF_CR_other (rest : Str) (h : rest.head? ≠ some LF) :
    replaceCRLF (CR :: rest) = CR :: replaceCRLF rest := by
  cases rest with
  | nil => simp [replaceCRLF]
  | cons c rest2 =>
    have hc : ¬ c = LF := fun e => h (by simp [e])
    simp [replaceCRLF, hc]

theorem replaceCRLF_other (b : Nat) (rest : Str) (h : b ≠ CR) :
    replaceCRLF (b :: rest) = b :: replaceCRLF rest := by
  cases rest with
  | nil => simp [replaceCRLF]
  | cons c rest2 => simp [replaceCRLF, h]

/-- C20: the single-pass replacer used by `split` equals the two-step
normalization (every CRLF to LF, then every remaining CR to LF) on every
string; its result holds no CR, and a CRLF pair yields exactly one LF. -/
theorem eolRepl_eq_normalizeTwoStep (s : Str) :
    eolRepl s = normalizeTwoStep s ∧ CR ∉ eolRepl s ∧
      (∀ rest, eolRepl (CR :: LF :: rest) = LF :: eolRepl rest) ∧ eolRepl [CR, LF] = [LF] := by
  refine ⟨?_, eolRepl_noCR s, eolRepl_CR_LF, by decide⟩
  unfold normalizeTwoStep
  induction s using eolRepl_ind with
  | h0 => simp [eolRepl, replaceCRLF, replaceCR]
  | h1 rest ih =>
    rw [eolRepl_CR_LF, replaceCRLF_CR_LF, ih]
    simp [replaceCR]
  | h2 rest hr ih =>
    rw [eolRepl_CR_other rest hr, replaceCRLF_CR_other rest hr, ih]
    simp [replaceCR]
  | h3 b rest hb ih =>
    rw [eolRepl_other b rest hb, replaceCRLF_other b rest hb, ih]
    simp [replaceCR, hb]

/-! ## The guard of the second loop -/

theorem detectIndent_of_all_blank (lines : List Str) (h : ∀ l ∈ lines, IsBlank l = true) :
    detectIndent lines = sentinel := by
  rw [detectIndent_eq]
  rcases foldl_indentStep_attained lines sentinel with h1 | ⟨l, hl, h0, _⟩
  · exact h1
  · have := (isBlank_true_iff l).1 (h l hl)
    omega

/-- C17: when every line of `split s` is blank, or some non-blank line of
`split s` starts with a non-whitespace character, `Indent s` is the split
lines joined with LF, each line unchanged. -/
theorem Indent_unchanged_without_positive_indent (s : Str)
    (h : (∀ l ∈ split s, IsBlank l = true) ∨
      ∃ l ∈ split s, IsBlank l = false ∧ indexNotSpace l = 0) :
    Indent s = joinLF (split s) := by
  have hn : ¬ (0 < detectIndent (split s) ∧ detectIndent (split s) ≠ sentinel) := by
    rcases h with h | ⟨l, hl, _, h0⟩
    · rw [detectIndent_of_all_blank _ h]; simp
    · have := detectIndent_le_of_nonblank (split s) l hl (by omega)
      omega
  unfold Indent
  rw [indentLines_of_not _ hn]
  split
  · rename_i h0
    rw [List.length_eq_zero] at h0
    rw [h0]; rfl
  · rfl

/-- Witness of C17 at the input "A\n  B" (the line `"A"` has indent 0). -/
theorem Indent_unchanged_without_positive_indent_witness :
    Indent [65, 10, 32, 32, 66] = joinLF (split [65, 10, 32, 32, 66]) :=
  Indent_unchanged_without_positive_indent [65, 10, 32, 32, 66]
    (Or.inr ⟨[65], by decide, by decide, by decide⟩)

/-- C18: with `m` the indent detected by the first loop of `Indent`, every line
of `split s` of length at most `m` is blank; equivalently every non-blank line
is longer than `m`, so the branch that empties a line is never taken for a
non-blank line. -/
theorem Indent_short_lines_are_blank (s : Str) (m : Int) (hm : detectIndent (split s) = m) :
    (∀ l ∈ split s, (l.length : Int) ≤ m → IsBlank l = true) ∧
      (∀ l ∈ split s, IsBlank l = false → (l.length : Int) > m ∧ stripLine m l = l.drop m.toNat) := by
  have key : ∀ l ∈ split s, IsBlank l = false → (l.length : Int) > m := by
    intro l hl hb
    have h0 := (isBlank_false_iff l).1 hb
    have h1 := detectIndent_le_of_nonblank (split s) l hl h0
    rcases indexNotSpace_range l with h | h <;> omega
  constructor
  · intro l hl hlen
    cases hb : IsBlank l with
    | true => rfl
    | false => have := key l hl hb; omega
  · intro l hl hb
    refine ⟨key l hl hb, ?_⟩
    unfold stripLine
    rw [if_pos (key l hl hb)]

/-- Witness of C18 at the input "\n   A\n \n    B\n", whose detected indent
is 3. -/
theorem Indent_short_lines_are_blank_witness :
    (∀ l ∈ split [10, 32, 32, 32, 65, 10, 32, 10, 32, 32, 32, 32, 66, 10],
        (l.length : Int) ≤ 3 → IsBlank l = true) ∧
      (∀ l ∈ split [10, 32, 32, 32, 65, 10, 32, 10, 32, 32, 32, 32, 66, 10],
        IsBlank l = false → (l.length : Int) > 3 ∧ stripLine 3 l = l.drop (3 : Int).toNat) :=
  Indent_short_lines_are_blank [10, 32, 32, 32, 65, 10, 32, 10, 32, 32, 32, 32, 66, 10] 3
    (by decide)

/-! ## The indent after one pass -/

theorem mem_dropFirstBlank (ls : List Str) (l : Str) (hl : l ∈ ls) (hb : IsBlank l = false) :
    l ∈ dropFirstBlank ls := by
  unfold dropFirstBlank
  split
  · rename_i hc
    cases ls with
    | nil => simp at hl
    | cons a rest =>
      rcases List.mem_cons.1 hl with h | h
      · subst h
        have := hc.2
        simp only [List.headD_cons] at this
        rw [hb] at this; exact absurd this (by simp)
      · simpa using h
  · exact hl

theorem getD_last_eq_getLast (ls : List Str) (hne : ls ≠ []) :
    ls.getD (ls.length - 1) [] = ls.getLast hne := by
  rw [List.getD_eq_getElem?_getD, List.getLast_eq_getElem]
  have hpos : 0 < ls.length := List.length_pos.2 hne
  rw [List.getElem?_eq_getElem (by omega)]
  rfl

theorem mem_dropLastBlank (ls : List Str) (l : Str) (hl : l ∈ ls) (hb : IsBlank l = false) :
    l ∈ dropLastBlank ls := by
  unfold dropLastBlank
  split
  · rename_i hc
    have hne : ls ≠ [] := by intro e; rw [e] at hl; simp at hl
    have hidx : ((ls.length : Int) - 1).toNat = ls.length - 1 := by omega
    rw [hidx] at hc ⊢
    rw [getD_last_eq_getLast ls hne] at hc
    rw [← List.dropLast_eq_take]
    have hsplit := List.dropLast_append_getLast hne
    rw [← hsplit] at hl
    rcases List.mem_append.1 hl with h | h
    · exact h
    · simp at h
      rw [h, hc.2] at hb; exact absurd hb (by simp)
  · exact hl

theorem split_joinLF_lines (ls : List Str) (hne : ls ≠ [])
    (hLF : ∀ l ∈ ls, LF ∉ l) (hCR : ∀ l ∈ ls, CR ∉ l) :
    split (joinLF ls) = dropLastBlank (dropFirstBlank ls) := by
  unfold split
  rw [eolRepl_of_noCR _ (joinLF_noCR ls hCR), splitLF_joinLF ls hne hLF]

theorem exists_indentLine_index_zero (s : Str) (hlen : s.length ≤ maxLen)
    (hnb : ∃ l ∈ split s, IsBlank l = false) :
    ∃ o ∈ indentLines (split s), indexNotSpace o = 0 := by
  obtain ⟨l, hl, hb⟩ := hnb
  have h0 := (isBlank_false_iff l).1 hb
  have hle := detectIndent_le_of_nonblank (split s) l hl h0
  have hl2 := split_length_le s l hl
  have hms : (maxLen : Int) = sentinel := rfl
  have hlt : detectIndent (split s) < sentinel := by
    rcases indexNotSpace_range l with h | h <;> omega
  rcases foldl_indentStep_attained (split s) sentinel with h | ⟨x, hx, hx0, hx1⟩
  · rw [← detectIndent_eq] at h; omega
  · rw [← detectIndent_eq] at hx1
    rw [indentLines_eq_map]
    refine ⟨_, List.mem_map_of_mem _ hx, ?_⟩
    split
    · rw [stripLine_of_nonblank (split s) x hx hx0]
      apply indexNotSpace_drop_self
      rw [hx1]; omega
    · rename_i hc
      have := detectIndent_nonneg (split s)
      omega

/-- C16: when `split s` holds a non-blank line, at least one line of `Indent s`
starts with a non-whitespace character, and the indent detected in `Indent s`
is 0.  (`s.length ≤ maxLen` is the bound every Go string meets.) -/
theorem Indent_output_has_indent_zero (s : Str) (hlen : s.length ≤ maxLen)
    (hnb : ∃ l ∈ split s, IsBlank l = false) :
    (∃ o ∈ splitLF (Indent s), indexNotSpace o = 0) ∧ detectIndent (split (Indent s)) = 0 := by
  have hne : split s ≠ [] := by
    obtain ⟨l, hl, _⟩ := hnb
    intro e; rw [e] at hl; simp at hl
  obtain ⟨o, ho, hi⟩ := exists_indentLine_index_zero s hlen hnb
  constructor
  · rw [splitLF_Indent s hne]; exact ⟨o, ho, hi⟩
  · have hI : Indent s = joinLF (indentLines (split s)) := by
      unfold Indent; rw [if_neg (by simpa using hne)]
    have hsp : split (Indent s) = dropLastBlank (dropFirstBlank (indentLines (split s))) := by
      rw [hI]
      apply split_joinLF_lines _ (indentLines_ne_nil _ hne)
      · intro x hx hc
        obtain ⟨l, hl, hs⟩ := indentLines_suffix _ x hx
        exact split_noLF s l hl (hs.subset hc)
      · intro x hx hc
        obtain ⟨l, hl, hs⟩ := indentLines_suffix _ x hx
        exact split_noCR s l hl (hs.subset hc)
    have hob : IsBlank o = false := (isBlank_false_iff o).2 (by omega)
    have hmem : o ∈ split (Indent s) := by
      rw [hsp]
      exact mem_dropLastBlank _ o (mem_dropFirstBlank _ o ho hob) hob
    have h1 := detectIndent_le_of_nonblank _ o hmem (by omega)
    have h2 := detectIndent_nonneg (split (Indent s))
    omega

/-- Witness of C16 at the input "\n\t A\n\t  B\n": the output is "A\n B". -/
theorem Indent_output_has_indent_zero_witness :
    (∃ o ∈ splitLF (Indent [10, 9, 32, 65, 10, 9, 32, 32, 66, 10]), indexNotSpace o = 0) ∧
      detectIndent (split (Indent [10, 9, 32, 65, 10, 9, 32, 32, 66, 10])) = 0 :=
  Indent_output_has_indent_zero [10, 9, 32, 65, 10, 9, 32, 32, 66, 10] (by decide)
    ⟨[9, 32, 65], by decide, by decide⟩

/-! ## Totality -/

theorem indexGo_found (d line : Str) (i : Nat) :
    indexGo d i line = -1 ∨
      ∃ j : Nat, indexGo d i line = (i : Int) + j ∧ d <+: line.drop j ∧ j ≤ line.length := by
  induction line generalizing i with
  | nil =>
    simp only [indexGo]
    split
    · rename_i h
      right; exact ⟨0, by simp, by simpa [List.isPrefixOf_iff_prefix] using h, by simp⟩
    · left; rfl
  | cons b rest ih =>
    simp only [indexGo]
    split
    · rename_i h
      right; exact ⟨0, by simp, by simpa [List.isPrefixOf_iff_prefix] using h, by simp⟩
    · rcases ih (i + 1) with h | ⟨j, hj, hp, hl⟩
      · left; exact h
      · right
        refine ⟨j + 1, by rw [hj]; push_cast; omega, by simpa using hp, by simp; omega⟩

theorem Index_bound (line d : Str) (h : Index line d ≥ 0) :
    Index line d + d.length ≤ line.length := by
  unfold Index at h ⊢
  rcases indexGo_found d line 0 with h1 | ⟨j, hj, hp, hl⟩
  · omega
  · have h2 := hp.length_le
    rw [List.length_drop] at h2
    rw [hj]; push_cast; omega

theorem mapLines_eq_some (f : Str → Option Str) (g : Str → Str) (ls : List Str)
    (h : ∀ l ∈ ls, f l = some (g l)) : mapLines f ls = some (ls.map g) := by
  induction ls with
  | nil => rfl
  | cons l rest ih =>
    simp only [mapLines, h l (by simp), ih (fun x hx => h x (by simp [hx])), List.map_cons]

theorem dropFirstBlankChecked_eq (ls : List Str) :
    dropFirstBlankChecked ls = some (dropFirstBlank ls) := by
  cases ls with
  | nil => simp [dropFirstBlankChecked, dropFirstBlank]
  | cons a rest =>
    simp only [dropFirstBlankChecked, dropFirstBlank, indexAt, sliceFrom, List.length_cons]
    cases hb : IsBlank a <;> simp [hb]

theorem dropLastBlankChecked_eq (ls : List Str) :
    dropLastBlankChecked ls = some (dropLastBlank ls) := by
  by_cases hne : ls = []
  · subst hne; simp [dropLastBlankChecked, dropLastBlank]
  · have hpos : 0 < ls.length := List.length_pos.2 hne
    have hidx : ((ls.length : Int) - 1).toNat = ls.length - 1 := by omega
    have hge : (ls.length : Int) - 1 ≥ 0 := by omega
    have hat : indexAt ls ((ls.length : Int) - 1) = some (ls.getD (ls.length - 1) []) := by
      unfold indexAt
      rw [if_pos (by omega), hidx, List.getD_eq_getElem?_getD,
        List.getElem?_eq_getElem (by omega)]
      rfl
    unfold dropLastBlankChecked dropLastBlank
    rw [if_pos hge, hat, hidx]
    simp only
    cases hb : IsBlank (ls.getD (ls.length - 1) [])
    · simp
    · simp only [sliceTo, hidx]
      rw [if_pos (⟨hge, by omega⟩ :
        0 ≤ (ls.length : Int) - 1 ∧ (ls.length : Int) - 1 ≤ (ls.length : Int))]
      simp [hge]

theorem splitChecked_eq (s : Str) : splitChecked s = some (split s) := by
  unfold splitChecked split
  rw [dropFirstBlankChecked_eq]
  exact dropLastBlankChecked_eq _

/-- C19: `Indent` and `Margin` are total: with every index and slice checked
as the Go run time checks it, both return their result on every input and
every delimiter; in `Margin`, a delimiter found at `j` has `0 ≤ j` and
`j + len(marginPrefix) ≤ len(line)`, and in `Indent` the slice `line[indent:]`
is taken with `0 < indent < len(line)`. -/
theorem Indent_Margin_total (s d : Str) :
    IndentChecked s = some (Indent s) ∧ MarginChecked s d = some (Margin s d) ∧
      (∀ line : Str, Index line (resolvePrefix d) ≠ -1 →
        0 ≤ Index line (resolvePrefix d) ∧
          Index line (resolvePrefix d) + (resolvePrefix d).length ≤ line.length) ∧
      (∀ line ∈ split s, 0 < detectIndent (split s) → (line.length : Int) > detectIndent (split s) →
        stripLineChecked (detectIndent (split s)) line =
          some (line.drop (detectIndent (split s)).toNat)) := by
  have hidx : ∀ line p : Str, Index line p ≠ -1 → 0 ≤ Index line p := by
    intro line p h
    unfold Index at h ⊢
    rcases indexGo_found p line 0 with h1 | ⟨j, hj, _, _⟩
    · exact absurd h1 h
    · rw [hj]; omega
  have hstrip : ∀ (m : Int) (line : Str), 0 ≤ m →
      stripLineChecked m line = some (stripLine m line) := by
    intro m line hm
    unfold stripLineChecked stripLine sliceFrom
    split
    · rw [if_pos (by omega)]
    · rfl
  refine ⟨?_, ?_, ?_, ?_⟩
  · unfold IndentChecked Indent
    rw [splitChecked_eq]
    simp only
    split
    · rfl
    · have : indentLinesChecked (split s) = some (indentLines (split s)) := by
        unfold indentLinesChecked indentLines
        split
        · exact mapLines_eq_some _ _ _ (fun l _ => hstrip _ l (detectIndent_nonneg _))
        · rfl
      rw [this]
  · unfold MarginChecked Margin
    rw [splitChecked_eq]
    simp only
    have : mapLines (marginLineChecked (resolvePrefix d)) (split s) =
        some ((split s).map (marginLine (resolvePrefix d))) := by
      apply mapLines_eq_some
      intro l _
      unfold marginLineChecked marginLine
      split
      · rename_i hge
        have hb := Index_bound l (resolvePrefix d) hge
        have ht : sliceTo l (Index l (resolvePrefix d)) =
            some (l.take (Index l (resolvePrefix d)).toNat) := by
          unfold sliceTo; rw [if_pos (by omega)]
        rw [ht]
        simp only
        split
        · unfold sliceFrom
          rw [if_pos (by omega)]
          congr 2
          omega
        · rfl
      · rfl
    rw [this]
  · intro line h
    have h0 := hidx line _ h
    exact ⟨h0, Index_bound line _ h0⟩
  · intro line _ hpos hgt
    rw [hstrip _ line (by omega)]
    unfold stripLine
    rw [if_pos hgt]

/-! ## The ends of the line sequence -/

theorem getLast?_cons_of_ne_nil (a : Str) (t : List Str) (h : t ≠ []) :
    (a :: t).getLast? = t.getLast? := by
  cases t with
  | nil => exact absurd rfl h
  | cons b r => simp [List.getLast?_cons_cons]

theorem dropLast_cons_of_ne_nil (a : Str) (t : List Str) (h : t ≠ []) :
    (a :: t).dropLast = a :: t.dropLast := by
  cases t with
  | nil => exact absurd rfl h
  | cons b r => simp

theorem dropFirstBlank_head (ls : List Str)
    (h : ∀ a b, ls.head? = some a → ls.tail.head? = some b →
      ¬ (IsBlank a = true ∧ IsBlank b = true)) :
    dropFirstBlank ls = [] ∨ ∃ a, (dropFirstBlank ls).head? = some a ∧ IsBlank a = false := by
  cases ls with
  | nil => left; simp [dropFirstBlank]
  | cons a rest =>
    cases ha : IsBlank a with
    | false => right; exact ⟨a, by simp [dropFirstBlank, ha], ha⟩
    | true =>
      have hM : dropFirstBlank (a :: rest) = rest := by simp [dropFirstBlank, ha]
      rw [hM]
      cases rest with
      | nil => left; rfl
      | cons b r =>
        right
        refine ⟨b, by simp, ?_⟩
        cases hb : IsBlank b with
        | false => rfl
        | true => exact absurd ⟨ha, hb⟩ (h a b (by simp) (by simp))

theorem dropFirstBlank_last_two (ls : List Str)
    (h : ∀ y z, ls.dropLast.getLast? = some y → ls.getLast? = some z →
      ¬ (IsBlank y = true ∧ IsBlank z = true)) :
    ∀ y z, (dropFirstBlank ls).dropLast.getLast? = some y →
      (dropFirstBlank ls).getLast? = some z → ¬ (IsBlank y = true ∧ IsBlank z = true) := by
  unfold dropFirstBlank
  split
  · cases ls with
    | nil => simp
    | cons a rest =>
      intro y z hy hz
      simp only [List.drop_one, List.tail_cons] at hy hz
      have hne : rest ≠ [] := by intro e; rw [e] at hz; simp at hz
      have hne2 : rest.dropLast ≠ [] := by intro e; rw [e] at hy; simp at hy
      apply h y z
      · rw [dropLast_cons_of_ne_nil a rest hne, getLast?_cons_of_ne_nil a _ hne2]; exact hy
      · rw [getLast?_cons_of_ne_nil a rest hne]; exact hz
  · exact h

theorem dropLastBlank_ends (ls : List Str)
    (hh : ls = [] ∨ ∃ a, ls.head? = some a ∧ IsBlank a = false)
    (h : ∀ y z, ls.dropLast.getLast? = some y → ls.getLast? = some z →
      ¬ (IsBlank y = true ∧ IsBlank z = true)) :
    dropLastBlank ls = [] ∨ ∃ a z, (dropLastBlank ls).head? = some a ∧
      (dropLastBlank ls).getLast? = some z ∧ IsBlank a = false ∧ IsBlank z = false := by
  rcases hh with hh | ⟨a, ha, hab⟩
  · left; rw [hh]; simp [dropLastBlank]
  · have hne : ls ≠ [] := by intro e; rw [e] at ha; simp at ha
    have hlast : ls.getLast? = some (ls.getLast hne) := List.getLast?_eq_getLast _ hne
    cases hz : IsBlank (ls.getLast hne) with
    | false =>
      right
      rw [dropLastBlank_of_last ls _ hlast hz]
      exact ⟨a, _, ha, hlast, hab, hz⟩
    | true =>
      have hpos : 0 < ls.length := List.length_pos.2 hne
      have hidx : ((ls.length : Int) - 1).toNat = ls.length - 1 := by omega
      have hR : dropLastBlank ls = ls.dropLast := by
        unfold dropLastBlank
        rw [hidx, getD_last_eq_getLast ls hne, hz, List.dropLast_eq_take]
        rw [if_pos ⟨by omega, rfl⟩]
      rw [hR]
      by_cases hinit : ls.dropLast = []
      · left; exact hinit
      · right
        have hy : ls.dropLast.getLast? = some (ls.dropLast.getLast hinit) :=
          List.getLast?_eq_getLast _ hinit
        refine ⟨a, _, ?_, hy, hab, ?_⟩
        · cases ls with
          | nil => exact absurd rfl hne
          | cons x rest =>
            cases rest with
            | nil => simp at hinit
            | cons x2 r => simpa using ha
        · cases hyb : IsBlank (ls.dropLast.getLast hinit) with
          | false => rfl
          | true => exact absurd ⟨hyb, hz⟩ (h _ _ hy hlast)

/-- C11, as stated, fails: `split` removes one blank first line only, so the
line sequence of "\n\nA" still begins with a blank line. -/
theorem split_first_line_may_be_blank :
    split [10, 10, 65] = [[], [65]] ∧ (split [10, 10, 65]).head? = some [] ∧
      IsBlank [] = true := by decide

/-- C11, amended: when the line sequence of the normalized text begins with at
most one blank line and ends with at most one blank line, `split s` is empty
or has a non-blank first line and a non-blank last line. -/
theorem split_ends_nonblank (s : Str) (h : AtMostOneBlankAtEnds (splitLF (eolRepl s))) :
    split s = [] ∨ ∃ a z, (split s).head? = some a ∧ (split s).getLast? = some z ∧
      IsBlank a = false ∧ IsBlank z = false := by
  unfold split
  exact dropLastBlank_ends _ (dropFirstBlank_head _ h.1) (dropFirstBlank_last_two _ h.2)

/-- Witness of the amended C11 at the input "\n  A\n\nB\n". -/
theorem split_ends_nonblank_witness :
    split [10, 32, 32, 65, 10, 10, 66, 10] = [] ∨
      ∃ a z, (split [10, 32, 32, 65, 10, 10, 66, 10]).head? = some a ∧
        (split [10, 32, 32, 65, 10, 10, 66, 10]).getLast? = some z ∧
        IsBlank a = false ∧ IsBlank z = false :=
  split_ends_nonblank [10, 32, 32, 65, 10, 10, 66, 10] (by
    have e : splitLF (eolRepl [10, 32, 32, 65, 10, 10, 66, 10]) =
        [[], [32, 32, 65], [], [66], []] := by decide
    rw [e]
    constructor
    · intro a b ha hb
      simp at ha hb
      subst ha; subst hb
      decide
    · intro y z hy hz
      simp at hy hz
      subst hy; subst hz
      decide)

/-! ## Lemmas: decoding next to a cut -/

theorem isSpace_runeError : isSpace runeError = false := by decide

theorem decodeRune_width_le (b : Nat) (rest : Str) :
    (decodeRune (b :: rest)).2 - 1 ≤ rest.length := by
  rcases rest with _ | ⟨b1, _ | ⟨b2, _ | ⟨b3, r3⟩⟩⟩ <;> simp only [decodeRune] <;>
    split_ifs <;> simp

theorem isSpace_lt (r : Nat) (h : isSpace r = true) : r ≤ 0x3000 := by
  unfold isSpace at h
  split_ifs at h
  · omega
  · simp only [Bool.or_eq_true, beq_iff_eq, Bool.and_eq_true, decide_eq_true_eq] at h
    omega

/-- The shapes of a string whose first rune is a whitespace rune: an ASCII
byte, or a well-formed sequence of two or three bytes. -/
theorem decodeRune_space_cases (b : Nat) (rest : Str)
    (hs : isSpace (decodeRune (b :: rest)).1 = true) :
    (b < 0x80 ∧ decodeRune (b :: rest) = (b, 1)) ∨
      (∃ b1 t, rest = b1 :: t ∧ ¬ b < 0x80 ∧ (0xC0 ≤ b ∧ b < 0xE0) ∧ isCont b1 = true ∧
        0x7F < (b % 0x20) * 0x40 + b1 % 0x40 ∧
        decodeRune (b :: rest) = ((b % 0x20) * 0x40 + b1 % 0x40, 2)) ∨
      (∃ b1 b2 t, rest = b1 :: b2 :: t ∧ ¬ b < 0x80 ∧ ¬ (0xC0 ≤ b ∧ b < 0xE0) ∧
        (0xE0 ≤ b ∧ b < 0xF0) ∧ (isCont b1 && isCont b2) = true ∧
        (0x7FF < (b % 0x10) * 0x1000 + (b1 % 0x40) * 0x40 + b2 % 0x40 ∧
          ¬ (0xD800 ≤ (b % 0x10) * 0x1000 + (b1 % 0x40) * 0x40 + b2 % 0x40 ∧
            (b % 0x10) * 0x1000 + (b1 % 0x40) * 0x40 + b2 % 0x40 ≤ 0xDFFF)) ∧
        decodeRune (b :: rest) = ((b % 0x10) * 0x1000 + (b1 % 0x40) * 0x40 + b2 % 0x40, 3)) := by
  have hne : ∀ w : Nat, isSpace (runeError, w).1 = true → False := by
    intro w h; simp [isSpace_runeError] at h
  by_cases h1 : b < 0x80
  · left; exact ⟨h1, by simp only [decodeRune, if_pos h1]⟩
  · right
    by_cases h2 : 0xC0 ≤ b ∧ b < 0xE0
    · left
      rcases rest with _ | ⟨b1, t⟩
      · simp only [decodeRune, if_neg h1, if_pos h2] at hs; exact absurd hs (by simp [isSpace_runeError])
      · simp only [decodeRune, if_neg h1, if_pos h2] at hs ⊢
        split_ifs at hs ⊢ with hc hr
        · exact ⟨b1, t, rfl, h1, h2, hc, hr, rfl⟩
        · exact (hne 1 hs).elim
        · exact (hne 1 hs).elim
    · right
      by_cases h3 : 0xE0 ≤ b ∧ b < 0xF0
      · rcases rest with _ | ⟨b1, _ | ⟨b2, t⟩⟩
        · simp only [decodeRune, if_neg h1, if_neg h2, if_pos h3] at hs
          exact (hne 1 hs).elim
        · simp only [decodeRune, if_neg h1, if_neg h2, if_pos h3] at hs
          exact (hne 1 hs).elim
        · simp only [decodeRune, if_neg h1, if_neg h2, if_pos h3] at hs ⊢
          split_ifs at hs ⊢ with hc hr
          · exact ⟨b1, b2, t, rfl, h1, h2, h3, hc, hr, rfl⟩
          · exact (hne 1 hs).elim
          · exact (hne 1 hs).elim
      · by_cases h4 : 0xF0 ≤ b ∧ b < 0xF8
        · rcases rest with _ | ⟨b1, _ | ⟨b2, _ | ⟨b3, t⟩⟩⟩
          · simp only [decodeRune, if_neg h1, if_neg h2, if_neg h3, if_pos h4] at hs
            exact (hne 1 hs).elim
          · simp only [decodeRune, if_neg h1, if_neg h2, if_neg h3, if_pos h4] at hs
            exact (hne 1 hs).elim
          · simp only [decodeRune, if_neg h1, if_neg h2, if_neg h3, if_pos h4] at hs
            exact (hne 1 hs).elim
          · simp only [decodeRune, if_neg h1, if_neg h2, if_neg h3, if_pos h4] at hs
            split_ifs at hs with hc hr
            · have := isSpace_lt _ hs
              simp only at this
              omega
            · exact (hne 1 hs).elim
            · exact (hne 1 hs).elim
        · simp only [decodeRune, if_neg h1, if_neg h2, if_neg h3, if_neg h4] at hs
          exact (hne 1 hs).elim

/-- The rune decoded at the head of a string depends only on the bytes it is
made of, when it is a whitespace rune. -/
theorem decodeRune_congr (b : Nat) (rest rest2 : Str)
    (hs : isSpace (decodeRune (b :: rest)).1 = true)
    (ht : rest2.take ((decodeRune (b :: rest)).2 - 1) =
      rest.take ((decodeRune (b :: rest)).2 - 1)) :
    decodeRune (b :: rest2) = decodeRune (b :: rest) := by
  rcases decodeRune_space_cases b rest hs with ⟨h1, hd⟩ | ⟨b1, t, rfl, h1, h2, hc, hr, hd⟩ |
    ⟨b1, b2, t, rfl, h1, h2, h3, hc, hr, hd⟩
  · rw [hd]; simp only [decodeRune, if_pos h1]
  · rw [hd] at ht ⊢
    rcases rest2 with _ | ⟨c1, t2⟩
    · simp at ht
    · simp at ht; subst ht
      simp only [decodeRune, if_neg h1, if_pos h2, hc, if_true, if_pos hr]
  · rw [hd] at ht ⊢
    rcases rest2 with _ | ⟨c1, _ | ⟨c2, t2⟩⟩
    · simp at ht
    · simp at ht
    · simp at ht; obtain ⟨rfl, rfl⟩ := ht
      simp only [decodeRune, if_neg h1, if_neg h2, if_pos h3, hc, if_true, if_pos hr]

theorem indexFuncGo_ge_skip (f : Nat → Bool) (s : Str) (i k : Nat) :
    indexFuncGo f i k s = -1 ∨ (i : Int) + k ≤ indexFuncGo f i k s := by
  induction s generalizing i k with
  | nil => left; simp [indexFuncGo]
  | cons b rest ih =>
    cases k with
    | zero =>
      rcases indexFuncGo_range f (b :: rest) i 0 with h | h
      · left; exact h
      · right; simpa using h.1
    | succ k =>
      simp only [indexFuncGo]
      rcases ih (i + 1) k with h | h
      · left; exact h
      · right; push_cast at h ⊢; omega

/-! ## Blank inputs -/

theorem indexFuncGo_blank_append_LF (l t : Str) (i k : Nat) (hLF : LF ∉ l)
    (hk : ((l ++ LF :: t).take k).all isCont = true)
    (h : indexFuncGo isNotSpace i k (l ++ LF :: t) = -1) :
    indexFuncGo isNotSpace i k l = -1 ∧ indexFuncGo isNotSpace 0 0 t = -1 := by
  induction l generalizing i k with
  | nil =>
    cases k with
    | zero =>
      simp only [List.nil_append, indexFuncGo] at h
      have hd : decodeRune (LF :: t) = (LF, 1) := by
        simp only [decodeRune]; rw [if_pos (by decide)]
      rw [hd] at h
      have hf : isNotSpace LF = false := by decide
      simp only [hf] at h
      refine ⟨by simp [indexFuncGo], ?_⟩
      by_contra hc
      exact indexFuncGo_neg_one_indep _ _ 0 (i + 1) 0 hc (by simpa using h)
    | succ k =>
      simp only [List.nil_append, List.take_succ_cons, List.all_cons, Bool.and_eq_true] at hk
      exact absurd hk.1 (by decide)
  | cons b l2 ih =>
    simp only [List.mem_cons, not_or] at hLF
    cases k with
    | zero =>
      simp only [List.cons_append, indexFuncGo] at h
      split at h
      · omega
      · rename_i hf
        have hs : isSpace (decodeRune (b :: (l2 ++ LF :: t))).1 = true := by
          simpa [isNotSpace] using hf
        have hcont := decodeRune_cont b (l2 ++ LF :: t)
        have hw : (decodeRune (b :: (l2 ++ LF :: t))).2 - 1 ≤ l2.length := by
          by_contra hgt
          rw [List.take_append_eq_append_take, List.all_append, Bool.and_eq_true] at hcont
          have h2 := hcont.2
          obtain ⟨n, hn⟩ : ∃ n, (decodeRune (b :: (l2 ++ LF :: t))).2 - 1 - l2.length = n + 1 :=
            ⟨(decodeRune (b :: (l2 ++ LF :: t))).2 - 1 - l2.length - 1, by omega⟩
          rw [hn] at h2
          simp only [List.take_succ_cons, List.all_cons, Bool.and_eq_true] at h2
          exact absurd h2.1 (by decide)
        have hd : decodeRune (b :: l2) = decodeRune (b :: (l2 ++ LF :: t)) :=
          decodeRune_congr b _ l2 hs (by rw [List.take_append_of_le_length hw])
        have := ih (i + 1) _ hLF.2 hcont h
        refine ⟨?_, this.2⟩
        simp only [indexFuncGo, hd]
        rw [if_neg (by simp [isNotSpace, hs])]
        exact this.1
    | succ k =>
      simp only [List.cons_append, indexFuncGo] at h
      simp only [List.cons_append, List.take_succ_cons, List.all_cons, Bool.and_eq_true] at hk
      have := ih (i + 1) k hLF.2 hk.2 h
      exact ⟨by simpa [indexFuncGo] using this.1, this.2⟩

theorem isBlank_append_LF (l t : Str) (hLF : LF ∉ l) (h : IsBlank (l ++ LF :: t) = true) :
    IsBlank l = true ∧ IsBlank t = true := by
  rw [isBlank_true_iff] at h
  have := indexFuncGo_blank_append_LF l t 0 0 hLF (by simp) h
  exact ⟨(isBlank_true_iff l).2 this.1, (isBlank_true_iff t).2 this.2⟩

theorem joinLF_splitLF (s : Str) : joinLF (splitLF s) = s := by
  induction s with
  | nil => rfl
  | cons b rest ih =>
    simp only [splitLF]
    split
    · rename_i hb
      cases hs : splitLF rest with
      | nil => exact absurd hs (splitLF_ne_nil rest)
      | cons l ls =>
        rw [joinLF_cons_cons, ← hs, ih, hb]; rfl
    · cases hs : splitLF rest with
      | nil => exact absurd hs (splitLF_ne_nil rest)
      | cons l ls =>
        rw [hs] at ih
        simp only
        cases ls with
        | nil => simp only [joinLF] at ih ⊢; rw [ih]
        | cons l2 r2 =>
          rw [joinLF_cons_cons] at ih ⊢
          rw [List.cons_append, ih]

theorem isBlank_joinLF_lines (ls : List Str) (hLF : ∀ l ∈ ls, LF ∉ l)
    (h : IsBlank (joinLF ls) = true) : ∀ l ∈ ls, IsBlank l = true := by
  induction ls with
  | nil => simp
  | cons l rest ih =>
    cases rest with
    | nil => intro x hx; simp at hx; subst hx; simpa [joinLF] using h
    | cons l2 r2 =>
      rw [joinLF_cons_cons] at h
      have h2 := isBlank_append_LF l _ (hLF l (by simp)) h
      intro x hx
      rcases List.mem_cons.1 hx with e | e
      · subst e; exact h2.1
      · exact ih (fun y hy => hLF y (by simp [hy])) h2.2 x e

theorem isBlank_splitLF_lines (s : Str) (h : IsBlank s = true) :
    ∀ l ∈ splitLF s, IsBlank l = true :=
  isBlank_joinLF_lines (splitLF s) (splitLF_noLF s) (by rw [joinLF_splitLF]; exact h)

theorem take_eolRepl_of_cont (n : Nat) (rest : Str) (h : (rest.take n).all isCont = true) :
    (eolRepl rest).take n = rest.take n := by
  induction n generalizing rest with
  | zero => simp
  | succ n ih =>
    cases rest with
    | nil => simp [eolRepl]
    | cons c r =>
      simp only [List.take_succ_cons, List.all_cons, Bool.and_eq_true] at h
      have hc : c ≠ CR := by
        intro e; rw [e] at h; exact absurd h.1 (by decide)
      rw [eolRepl_other c r hc, List.take_succ_cons, List.take_succ_cons, ih r h.2]

theorem indexFuncGo_blank_eolRepl (s : Str) :
    ∀ i k : Nat, (s.take k).all isCont = true → indexFuncGo isNotSpace i k s = -1 →
      indexFuncGo isNotSpace i k (eolRepl s) = -1 := by
  have hLFd : ∀ t : Str, decodeRune (LF :: t) = (LF, 1) := by
    intro t; simp only [decodeRune]; rw [if_pos (by decide)]
  have hCRd : ∀ t : Str, decodeRune (CR :: t) = (CR, 1) := by
    intro t; simp only [decodeRune]; rw [if_pos (by decide)]
  have hLFf : isNotSpace LF = false := by decide
  have hCRf : isNotSpace CR = false := by decide
  induction s using eolRepl_ind with
  | h0 => intro i k _ _; simp [eolRepl, indexFuncGo]
  | h1 rest ih =>
    intro i k hk h
    cases k with
    | zero =>
      rw [eolRepl_CR_LF]
      simp only [indexFuncGo, hCRd, hLFd, hCRf, hLFf] at h ⊢
      simp only [Bool.false_eq_true, if_false, Nat.sub_self] at h ⊢
      have := ih (i + 1 + 1) 0 (by simp) h
      by_contra hc
      exact indexFuncGo_neg_one_indep _ _ (i + 1) (i + 1 + 1) 0 hc this
    | succ k =>
      simp only [List.take_succ_cons, List.all_cons, Bool.and_eq_true] at hk
      exact absurd hk.1 (by decide)
  | h2 rest hr ih =>
    intro i k hk h
    cases k with
    | zero =>
      rw [eolRepl_CR_other rest hr]
      simp only [indexFuncGo, hCRd, hLFd, hCRf, hLFf] at h ⊢
      simp only [Bool.false_eq_true, if_false, Nat.sub_self] at h ⊢
      exact ih (i + 1) 0 (by simp) h
    | succ k =>
      simp only [List.take_succ_cons, List.all_cons, Bool.and_eq_true] at hk
      exact absurd hk.1 (by decide)
  | h3 b rest hb ih =>
    intro i k hk h
    rw [eolRepl_other b rest hb]
    cases k with
    | zero =>
      simp only [indexFuncGo] at h
      split at h
      · omega
      · rename_i hf
        have hs : isSpace (decodeRune (b :: rest)).1 = true := by
          simpa [isNotSpace] using hf
        have hcont := decodeRune_cont b rest
        have hd : decodeRune (b :: eolRepl rest) = decodeRune (b :: rest) :=
          decodeRune_congr b rest _ hs (take_eolRepl_of_cont _ rest hcont)
        simp only [indexFuncGo, hd]
        rw [if_neg hf]
        exact ih (i + 1) _ hcont h
    | succ k =>
      simp only [indexFuncGo] at h ⊢
      simp only [List.take_succ_cons, List.all_cons, Bool.and_eq_true] at hk
      exact ih (i + 1) k hk.2 h

theorem isBlank_eolRepl (s : Str) (h : IsBlank s = true) : IsBlank (eolRepl s) = true := by
  rw [isBlank_true_iff] at h ⊢
  exact indexFuncGo_blank_eolRepl s 0 0 (by simp) h

/-- C12, as stated, fails: the blank input "\n\n" has three (empty) lines, of
which `split` removes the first and the last only. -/
theorem split_blank_not_empty :
    IsBlank [10, 10] = true ∧ split [10, 10] = [[]] ∧ split [10, 10] ≠ [] := by decide

/-- C12, amended: for every blank string `s` with at most one line terminator
(at most two lines), `split s` is the empty sequence. -/
theorem split_blank_eq_nil (s : Str) (hb : IsBlank s = true) (hn : lineCount s ≤ 2) :
    split s = [] := by
  have hall := isBlank_splitLF_lines (eolRepl s) (isBlank_eolRepl s hb)
  unfold lineCount at hn
  unfold split
  rcases hL : splitLF (eolRepl s) with _ | ⟨a, _ | ⟨b, _ | ⟨c, r⟩⟩⟩
  · exact absurd hL (splitLF_ne_nil _)
  · rw [hL] at hall
    have ha := hall a (by simp)
    simp [dropFirstBlank, dropLastBlank, ha]
  · rw [hL] at hall
    have ha := hall a (by simp)
    have hb2 := hall b (by simp)
    simp [dropFirstBlank, dropLastBlank, ha, hb2]
  · rw [hL] at hn; simp at hn

/-- Witness of the amended C12 at the blank input " \r\n\t". -/
theorem split_blank_eq_nil_witness : split [32, 13, 10, 9] = [] :=
  split_blank_eq_nil [32, 13, 10, 9] (by decide) (by decide)

/-! ## Lemmas: the leading whitespace of a line -/

theorem indexFuncGo_take_blank (s : Str) (i k j : Nat)
    (h : indexFuncGo isNotSpace i k s = (i : Int) + j) :
    indexFuncGo isNotSpace i k (s.take j) = -1 := by
  induction s generalizing i k j with
  | nil => simp [indexFuncGo] at h; omega
  | cons b rest ih =>
    cases k with
    | zero =>
      simp only [indexFuncGo] at h
      split at h
      · have hj : j = 0 := by omega
        subst hj; simp [indexFuncGo]
      · rename_i hf
        have hs : isSpace (decodeRune (b :: rest)).1 = true := by
          simpa [isNotSpace] using hf
        rcases indexFuncGo_ge_skip isNotSpace rest (i + 1) ((decodeRune (b :: rest)).2 - 1)
          with h2 | h2
        · omega
        · cases j with
          | zero => omega
          | succ j =>
            have hw : (decodeRune (b :: rest)).2 - 1 ≤ j := by
              rw [h] at h2; push_cast at h2; omega
            have hd : decodeRune (b :: rest.take j) = decodeRune (b :: rest) :=
              decodeRune_congr b rest _ hs (by rw [List.take_take, Nat.min_eq_left hw])
            simp only [List.take_succ_cons, indexFuncGo, hd]
            rw [if_neg hf]
            exact ih (i + 1) _ j (by rw [h]; push_cast; omega)
    | succ k =>
      simp only [indexFuncGo] at h
      rcases indexFuncGo_range isNotSpace rest (i + 1) k with h2 | h2
      · omega
      · cases j with
        | zero => omega
        | succ j =>
          simp only [List.take_succ_cons, indexFuncGo]
          exact ih (i + 1) k j (by rw [h]; push_cast; omega)

theorem isBlank_take_indexNotSpace (l : Str) (h0 : 0 ≤ indexNotSpace l) :
    IsBlank (l.take (indexNotSpace l).toNat) = true := by
  obtain ⟨j, hj⟩ := Int.eq_ofNat_of_zero_le h0
  rw [isBlank_true_iff, hj]
  simp only [Int.toNat_ofNat]
  unfold indexNotSpace IndexFunc at hj ⊢
  exact indexFuncGo_take_blank l 0 0 j (by rw [hj]; simp)

theorem indexFuncGo_append_blank (w c : Str) (i k : Nat) (hk : k ≤ w.length)
    (h : indexFuncGo isNotSpace i k w = -1) :
    indexFuncGo isNotSpace i k (w ++ c) = indexFuncGo isNotSpace (i + w.length) 0 c := by
  induction w generalizing i k with
  | nil =>
    have : k = 0 := by simpa using hk
    subst this; simp
  | cons b w2 ih =>
    cases k with
    | zero =>
      simp only [indexFuncGo] at h
      split at h
      · omega
      · rename_i hf
        have hs : isSpace (decodeRune (b :: w2)).1 = true := by
          simpa [isNotSpace] using hf
        have hw := decodeRune_width_le b w2
        have hd : decodeRune (b :: (w2 ++ c)) = decodeRune (b :: w2) :=
          decodeRune_congr b w2 _ hs (by rw [List.take_append_of_le_length hw])
        simp only [List.cons_append, indexFuncGo, List.append_eq, hd]
        rw [if_neg hf, ih (i + 1) _ hw h]
        simp only [List.length_cons]
        rw [show i + 1 + w2.length = i + (w2.length + 1) by omega]
    | succ k =>
      simp only [indexFuncGo] at h
      simp only [List.cons_append, indexFuncGo, List.append_eq]
      rw [ih (i + 1) k (by simpa using hk) h]
      simp only [List.length_cons]
      rw [show i + 1 + w2.length = i + (w2.length + 1) by omega]

theorem indexNotSpace_append_blank (w c : Str) (hw : IsBlank w = true)
    (hc : 0 ≤ indexNotSpace c) : indexNotSpace (w ++ c) = indexNotSpace c + w.length := by
  rw [isBlank_true_iff] at hw
  unfold indexNotSpace IndexFunc at hw hc ⊢
  rw [indexFuncGo_append_blank w c 0 0 (by omega) hw]
  have := indexFuncGo_shift isNotSpace c 0 0 w.length
  rw [this, if_neg (by omega)]

theorem indexNotSpace_append_blank_neg (w c : Str) (hw : IsBlank w = true)
    (hc : indexNotSpace c = -1) : indexNotSpace (w ++ c) = -1 := by
  rw [isBlank_true_iff] at hw
  unfold indexNotSpace IndexFunc at hw hc ⊢
  rw [indexFuncGo_append_blank w c 0 0 (by omega) hw]
  have := indexFuncGo_shift isNotSpace c 0 0 w.length
  rw [this, if_pos hc]

/-! ## What `Indent` removes from a non-blank line -/

theorem removedIndent_le (lines : List Str) (l : Str) (hl : l ∈ lines)
    (h0 : 0 ≤ indexNotSpace l) : (removedIndent lines : Int) ≤ indexNotSpace l := by
  have h1 := detectIndent_le_of_nonblank lines l hl h0
  have h2 := detectIndent_nonneg lines
  unfold removedIndent
  split <;> omega

theorem removedIndent_of_isMinIndent (s : Str) (m : Nat) (hlen : s.length ≤ maxLen)
    (hm : IsMinIndent (split s) m) : removedIndent (split s) = m := by
  have hlt := isMinIndent_lt_sentinel s m hlen hm
  have hd := detectIndent_of_isMinIndent (split s) m hm hlt
  unfold removedIndent
  rw [hd]
  split
  · simp
  · omega

theorem indentLine_drop (s : Str) (k : Nat) (l : Str) (hk : (split s)[k]? = some l)
    (hb : IsBlank l = false) :
    (splitLF (Indent s))[k]? = some (l.drop (removedIndent (split s))) := by
  have hmem : l ∈ split s := List.getElem?_mem hk
  have h0 := (isBlank_false_iff l).1 hb
  have hne : split s ≠ [] := by intro e; rw [e] at hmem; simp at hmem
  rw [splitLF_Indent s hne, indentLines_eq_map, List.getElem?_map, hk]
  simp only [Option.map_some']
  congr 1
  unfold removedIndent
  split
  · exact stripLine_of_nonblank (split s) l hmem h0
  · simp

/-- C13 (the code breaks the claim): on the input "\u2002A\n  B" the detected
indent is 2 bytes, taken from the line `"  B"`, and `Indent` returns the bytes
`82 41 0A 42`: the line `"\u2002A"` loses the first two bytes `E2 80` of its
three-byte space, a removed prefix that is not blank, where the claim (and the
doc comment of `Indent`) has only whole whitespace characters removed. -/
theorem Indent_removed_prefix_not_blank :
    (split [0xE2, 0x80, 0x82, 65, 10, 32, 32, 66])[0]? = some [0xE2, 0x80, 0x82, 65] ∧
      IsBlank [0xE2, 0x80, 0x82, 65] = false ∧
      (splitLF (Indent [0xE2, 0x80, 0x82, 65, 10, 32, 32, 66]))[0]? =
        some ([0xE2, 0x80, 0x82, 65].drop 2) ∧
      IsBlank ([0xE2, 0x80, 0x82, 65].take 2) = false ∧
      Indent [0xE2, 0x80, 0x82, 65, 10, 32, 32, 66] = [0x82, 65, 10, 66] := by decide

/-- On every input, a non-blank line `l` of `split s` appears in `Indent s`, at
the same position, without its first `n` bytes for some `n` that is at most the
offset of the first non-whitespace character of `l`: the output line is a
suffix of `l`, the leading whitespace of `l` is blank, and the content of `l`
from its first non-whitespace character onward is kept. -/
theorem Indent_removes_within_leading_whitespace (s : Str) (k : Nat) (l : Str)
    (hk : (split s)[k]? = some l) (hb : IsBlank l = false) :
    ∃ n : Nat, (n : Int) ≤ indexNotSpace l ∧
      (splitLF (Indent s))[k]? = some (l.drop n) ∧ l.drop n <:+ l ∧
      l.take n <+: l.take (indexNotSpace l).toNat ∧
      IsBlank (l.take (indexNotSpace l).toNat) = true ∧
      l.drop (indexNotSpace l).toNat <:+ l.drop n := by
  have hmem : l ∈ split s := List.getElem?_mem hk
  have h0 := (isBlank_false_iff l).1 hb
  have hle := removedIndent_le (split s) l hmem h0
  have hn : removedIndent (split s) ≤ (indexNotSpace l).toNat := by omega
  refine ⟨removedIndent (split s), hle, indentLine_drop s k l hk hb, List.drop_suffix _ _, ?_,
    isBlank_take_indexNotSpace l h0, ?_⟩
  · exact List.take_prefix_take_left l hn
  · have hd : l.drop (indexNotSpace l).toNat =
        (l.drop (removedIndent (split s))).drop
          ((indexNotSpace l).toNat - removedIndent (split s)) := by
      rw [List.drop_drop]; congr 1; omega
    rw [hd]
    exact List.drop_suffix _ _

/-- The line `"\t  B"` of the input "\n\t A\n\t  B\n" keeps its content. -/
theorem Indent_removes_within_leading_whitespace_witness :
    ∃ n : Nat, (n : Int) ≤ indexNotSpace [9, 32, 32, 66] ∧
      (splitLF (Indent [10, 9, 32, 65, 10, 9, 32, 32, 66, 10]))[1]? =
        some ([9, 32, 32, 66].drop n) ∧ [9, 32, 32, 66].drop n <:+ [9, 32, 32, 66] ∧
      [9, 32, 32, 66].take n <+: [9, 32, 32, 66].take (indexNotSpace [9, 32, 32, 66]).toNat ∧
      IsBlank ([9, 32, 32, 66].take (indexNotSpace [9, 32, 32, 66]).toNat) = true ∧
      [9, 32, 32, 66].drop (indexNotSpace [9, 32, 32, 66]).toNat <:+ [9, 32, 32, 66].drop n :=
  Indent_removes_within_leading_whitespace [10, 9, 32, 65, 10, 9, 32, 32, 66, 10] 1
    [9, 32, 32, 66] (by decide) (by decide)

/-- C15 (the code breaks the claim): on the input "\u2002A\n  B" the detected
indent is `m = 2` and the line `"\u2002A"` has its first non-whitespace
character at offset 3; `Indent` returns the bytes `82 41 0A 42`, whose first
line starts with the last byte of the cut space, a non-whitespace character at
offset 0 where the claim has offset `3 - 2 = 1`. -/
theorem Indent_relative_indent_lost :
    IsMinIndent (split [0xE2, 0x80, 0x82, 65, 10, 32, 32, 66]) 2 ∧
      (split [0xE2, 0x80, 0x82, 65, 10, 32, 32, 66])[0]? = some [0xE2, 0x80, 0x82, 65] ∧
      indexNotSpace [0xE2, 0x80, 0x82, 65] = 3 ∧
      (splitLF (Indent [0xE2, 0x80, 0x82, 65, 10, 32, 32, 66]))[0]? = some [0x82, 65] ∧
      indexNotSpace [0x82, 65] = 0 ∧ indexNotSpace [0x82, 65] ≠ 3 - 2 ∧
      Indent [0xE2, 0x80, 0x82, 65, 10, 32, 32, 66] = [0x82, 65, 10, 66] :=
  ⟨⟨⟨[32, 32, 66], by decide, by decide, by decide⟩, by decide⟩,
    by decide, by decide, by decide, by decide, by decide, by decide⟩

/-- Where no character is cut, relative indentation is preserved: with `m` the
detected indent, a non-blank line whose first non-whitespace character is at
offset `i` and whose first `m` bytes are whole whitespace characters yields an
output line whose first non-whitespace character is at offset `i - m`. -/
theorem Indent_preserves_relative_indent (s : Str) (m k : Nat) (l : Str) (i : Int)
    (hlen : s.length ≤ maxLen) (hm : IsMinIndent (split s) m)
    (hk : (split s)[k]? = some l) (hi : indexNotSpace l = i) (h0 : 0 ≤ i)
    (hcut : IsBlank (l.take m) = true) :
    ∃ o, (splitLF (Indent s))[k]? = some o ∧ indexNotSpace o = i - m := by
  have hb : IsBlank l = false := (isBlank_false_iff l).2 (by omega)
  have hmem : l ∈ split s := List.getElem?_mem hk
  have hml := hm.2 l hmem hb
  have hlenl : m ≤ l.length := by
    rcases indexNotSpace_range l with h | h <;> omega
  refine ⟨l.drop m, ?_, ?_⟩
  · rw [indentLine_drop s k l hk hb, removedIndent_of_isMinIndent s m hlen hm]
  · have hsplit : l = l.take m ++ l.drop m := (List.take_append_drop m l).symm
    have htl : (l.take m).length = m := by rw [List.length_take]; omega
    rcases indexNotSpace_range (l.drop m) with h | h
    · have := indexNotSpace_append_blank_neg _ _ hcut h
      rw [← hsplit] at this
      omega
    · have := indexNotSpace_append_blank _ _ hcut h.1
      rw [← hsplit, htl] at this
      omega

/-- The line `"\t  B"` (offset 3) of the input "\n\t A\n\t  B\n", whose
detected indent is 2, yields a line with offset 1. -/
theorem Indent_preserves_relative_indent_witness :
    ∃ o, (splitLF (Indent [10, 9, 32, 65, 10, 9, 32, 32, 66, 10]))[1]? = some o ∧
      indexNotSpace o = 3 - (2 : Nat) :=
  Indent_preserves_relative_indent [10, 9, 32, 65, 10, 9, 32, 32, 66, 10] 2 1 [9, 32, 32, 66] 3
    (by decide) ⟨⟨[9, 32, 65], by decide, by decide, by decide⟩, by decide⟩
    (by decide) (by decide) (by decide) (by decide)

/-! ## A single line -/

theorem trimLeftGo_eq (s : Str) (i k : Nat) :
    trimLeftGo k s =
      if indexFuncGo isNotSpace i k s = -1 then []
      else s.drop (indexFuncGo isNotSpace i k s - i).toNat := by
  induction s generalizing i k with
  | nil => simp [trimLeftGo, indexFuncGo]
  | cons b rest ih =>
    cases k with
    | zero =>
      simp only [trimLeftGo, indexFuncGo]
      cases hs : isSpace (decodeRune (b :: rest)).1 with
      | true =>
        have hf : isNotSpace (decodeRune (b :: rest)).1 = false := by simp [isNotSpace, hs]
        simp only [hf, if_true, Bool.false_eq_true, if_false]
        rw [ih (i + 1)]
        rcases indexFuncGo_range isNotSpace rest (i + 1) ((decodeRune (b :: rest)).2 - 1)
          with h | h
        · rw [if_pos h, if_pos h]
        · rw [if_neg (by omega), if_neg (by omega)]
          have : (indexFuncGo isNotSpace (i + 1) ((decodeRune (b :: rest)).2 - 1) rest -
              (i : Int)).toNat =
            (indexFuncGo isNotSpace (i + 1) ((decodeRune (b :: rest)).2 - 1) rest -
              ((i + 1 : Nat) : Int)).toNat + 1 := by
            push_cast; omega
          rw [this, List.drop_succ_cons]
      | false =>
        have hf : isNotSpace (decodeRune (b :: rest)).1 = true := by simp [isNotSpace, hs]
        simp only [hf, if_true, Bool.false_eq_true, if_false]
        rw [if_neg (by omega)]
        simp
    | succ k =>
      simp only [trimLeftGo, indexFuncGo]
      rw [ih (i + 1)]
      rcases indexFuncGo_range isNotSpace rest (i + 1) k with h | h
      · rw [if_pos h, if_pos h]
      · rw [if_neg (by omega), if_neg (by omega)]
        have : (indexFuncGo isNotSpace (i + 1) k rest - (i : Int)).toNat =
            (indexFuncGo isNotSpace (i + 1) k rest - ((i + 1 : Nat) : Int)).toNat + 1 := by
          push_cast; omega
        rw [this, List.drop_succ_cons]

theorem trimLeft_eq (s : Str) :
    trimLeft s = if indexNotSpace s = -1 then [] else s.drop (indexNotSpace s).toNat := by
  unfold trimLeft indexNotSpace IndexFunc
  rw [trimLeftGo_eq s 0 0]
  simp

theorem split_single_line (s : Str) (hCR : CR ∉ s) (hLF : LF ∉ s) :
    split s = if IsBlank s = true then [] else [s] := by
  unfold split
  rw [eolRepl_of_noCR s hCR, splitLF_noLF_self s hLF]
  cases hb : IsBlank s with
  | true => simp [dropFirstBlank, dropLastBlank, hb]
  | false => simp [dropFirstBlank, dropLastBlank, hb]

theorem Indent_single_nonblank (s : Str) (hCR : CR ∉ s) (hLF : LF ∉ s)
    (hlen : s.length ≤ maxLen) (hb : IsBlank s = false) :
    Indent s = s.drop (indexNotSpace s).toNat := by
  have h0 := (isBlank_false_iff s).1 hb
  have hms : (maxLen : Int) = sentinel := rfl
  have hr : indexNotSpace s < (s.length : Int) := by
    rcases indexNotSpace_range s with h | h <;> omega
  have hsp : split s = [s] := by rw [split_single_line s hCR hLF, hb]; simp
  have hD : detectIndent [s] = indexNotSpace s := by
    rw [detectIndent_eq]
    simp only [List.foldl_cons, List.foldl_nil, indentStep]
    rw [if_pos ⟨h0, by omega⟩]
  unfold Indent
  rw [hsp]
  simp only [List.length_singleton, one_ne_zero, if_false]
  unfold indentLines
  rw [hD]
  split
  · simp only [List.map_cons, List.map_nil, joinLF, stripLine]
    rw [if_pos hr]
  · rename_i hc
    have : indexNotSpace s = 0 := by omega
    rw [this]; simp [joinLF]

/-- C14: for a string `s` without CR and LF (a single line), `Indent s` is `s`
with all of its leading whitespace characters removed; `Indent` of a blank
single line is empty; and `Indent (w ++ c) = c` when `w` is blank and `c`
starts with a non-whitespace character.  (`s.length ≤ maxLen` is the bound
every Go string meets.) -/
theorem Indent_single_line (s : Str) (hCR : CR ∉ s) (hLF : LF ∉ s) (hlen : s.length ≤ maxLen) :
    Indent s = trimLeft s ∧ (IsBlank s = true → Indent s = []) ∧
      ∀ w c : Str, s = w ++ c → IsBlank w = true →
        (∃ r rs, runes c = r :: rs ∧ isSpace r = false) → Indent s = c := by
  have hblank : IsBlank s = true → Indent s = [] := by
    intro hb
    unfold Indent
    rw [split_single_line s hCR hLF, if_pos hb]; rfl
  refine ⟨?_, hblank, ?_⟩
  · rw [trimLeft_eq]
    cases hb : IsBlank s with
    | true => rw [hblank hb, if_pos ((isBlank_true_iff s).1 hb)]
    | false =>
      have h0 := (isBlank_false_iff s).1 hb
      rw [Indent_single_nonblank s hCR hLF hlen hb, if_neg (by omega)]
  · rintro w c rfl hw ⟨r, rs, hr, hs⟩
    have hc0 : indexNotSpace c = 0 := by
      cases c with
      | nil => simp [runes, runesGo] at hr
      | cons b rest =>
        simp only [runes, runesGo, List.cons.injEq] at hr
        have hf : isNotSpace (decodeRune (b :: rest)).1 = true := by
          rw [hr.1]; simp [isNotSpace, hs]
        simp [indexNotSpace, IndexFunc, indexFuncGo, hf]
    have hidx := indexNotSpace_append_blank w c hw (by omega)
    have hb : IsBlank (w ++ c) = false := (isBlank_false_iff _).2 (by omega)
    rw [Indent_single_nonblank _ hCR hLF hlen hb, hidx, hc0]
    simp

/-- Witness of C14 at the input "\u2002\u2003ABC" (two three-byte spaces before `ABC`). -/
theorem Indent_single_line_witness :
    Indent [0xE2, 0x80, 0x82, 0xE2, 0x80, 0x83, 65, 66, 67] =
        trimLeft [0xE2, 0x80, 0x82, 0xE2, 0x80, 0x83, 65, 66, 67] ∧
      (IsBlank [0xE2, 0x80, 0x82, 0xE2, 0x80, 0x83, 65, 66, 67] = true →
        Indent [0xE2, 0x80, 0x82, 0xE2, 0x80, 0x83, 65, 66, 67] = []) ∧
      ∀ w c : Str, [0xE2, 0x80, 0x82, 0xE2, 0x80, 0x83, 65, 66, 67] = w ++ c →
        IsBlank w = true → (∃ r rs, runes c = r :: rs ∧ isSpace r = false) →
        Indent [0xE2, 0x80, 0x82, 0xE2, 0x80, 0x83, 65, 66, 67] = c :=
  Indent_single_line [0xE2, 0x80, 0x82, 0xE2, 0x80, 0x83, 65, 66, 67]
    (by decide) (by decide) (by decide)

/-! ## Indentation is measured in bytes -/

theorem runesGo_append_blank (w c : Str) (i k : Nat) (hk : k ≤ w.length)
    (h : indexFuncGo isNotSpace i k w = -1) :
    runesGo k (w ++ c) = runesGo k w ++ runesGo 0 c := by
  induction w generalizing i k with
  | nil =>
    have : k = 0 := by simpa using hk
    subst this; simp [runesGo]
  | cons b w2 ih =>
    cases k with
    | zero =>
      simp only [indexFuncGo] at h
      split at h
      · omega
      · rename_i hf
        have hs : isSpace (decodeRune (b :: w2)).1 = true := by
          simpa [isNotSpace] using hf
        have hw := decodeRune_width_le b w2
        have hd : decodeRune (b :: (w2 ++ c)) = decodeRune (b :: w2) :=
          decodeRune_congr b w2 _ hs (by rw [List.take_append_of_le_length hw])
        simp only [List.cons_append, runesGo, List.append_eq, hd]
        rw [ih (i + 1) _ hw h]
    | succ k =>
      simp only [indexFuncGo] at h
      simp only [List.cons_append, runesGo, List.append_eq]
      exact ih (i + 1) k (by simpa using hk) h

theorem runes_append_blank (w c : Str) (hw : IsBlank w = true) :
    runes (w ++ c) = runes w ++ runes c := by
  rw [isBlank_true_iff] at hw
  unfold indexNotSpace IndexFunc at hw
  unfold runes
  exact runesGo_append_blank w c 0 0 (by omega) hw

theorem runes_all_space_of_isBlank (w : Str) (hw : IsBlank w = true) :
    ∀ r ∈ runes w, isSpace r = true := by
  rw [isBlank_true_iff] at hw
  unfold indexNotSpace IndexFunc at hw
  rw [indexFuncGo_eq_neg_one_iff] at hw
  intro r hr
  have := hw r hr
  simpa [isNotSpace] using this

/-- C7, as stated, fails: the lines of "\u2002A\n   B" have 1 and 3 characters
of indentation (minimum 1) but 3 and 3 bytes (minimum 3); `Indent` removes 3
bytes from each line, all of them whole whitespace characters, and returns
"A\nB": the non-blank line `"   B"` loses three characters, not one. -/
theorem Indent_not_by_code_points :
    IsMinRuneIndent (split [0xE2, 0x80, 0x82, 65, 10, 32, 32, 32, 66]) 1 ∧
      (split [0xE2, 0x80, 0x82, 65, 10, 32, 32, 32, 66])[1]? = some [32, 32, 32, 66] ∧
      IsBlank [32, 32, 32, 66] = false ∧
      (splitLF (Indent [0xE2, 0x80, 0x82, 65, 10, 32, 32, 32, 66]))[1]? = some [66] ∧
      runes [66] ≠ (runes [32, 32, 32, 66]).drop 1 ∧
      Indent [0xE2, 0x80, 0x82, 65, 10, 32, 32, 32, 66] = [65, 10, 66] ∧
      IsBlank ([0xE2, 0x80, 0x82, 65].take 3) = true ∧ IsBlank ([32, 32, 32, 66].take 3) = true :=
  ⟨⟨⟨[0xE2, 0x80, 0x82, 65], by decide, by decide, by decide⟩, by decide⟩,
    by decide, by decide, by decide, by decide, by decide, by decide, by decide⟩

/-- C7, amended: `Indent` measures indentation in bytes: when `m` is the
minimum, over the non-blank lines of `split s`, of the byte offset of the first
non-whitespace character, every non-blank line of `split s` whose first `m`
bytes are whole whitespace characters is longer than `m` bytes and appears in
`Indent s`, at the same position, without these `m` bytes, that is without the
whitespace characters they encode (a multi-byte space counts for the bytes of
its UTF-8 encoding). -/
theorem Indent_removes_min_byte_indent (s : Str) (m k : Nat) (l : Str)
    (hlen : s.length ≤ maxLen) (hm : IsMinIndent (split s) m)
    (hk : (split s)[k]? = some l) (hb : IsBlank l = false)
    (hcut : IsBlank (l.take m) = true) :
    m < l.length ∧ (splitLF (Indent s))[k]? = some (l.drop m) ∧
      (∀ r ∈ runes (l.take m), isSpace r = true) ∧
      runes (l.drop m) = (runes l).drop (runes (l.take m)).length := by
  have hmem : l ∈ split s := List.getElem?_mem hk
  have h0 := (isBlank_false_iff l).1 hb
  have hml := hm.2 l hmem hb
  refine ⟨?_, ?_, runes_all_space_of_isBlank _ hcut, ?_⟩
  · rcases indexNotSpace_range l with h | h <;> omega
  · rw [indentLine_drop s k l hk hb, removedIndent_of_isMinIndent s m hlen hm]
  · have hr := runes_append_blank (l.take m) (l.drop m) hcut
    rw [List.take_append_drop] at hr
    rw [hr, List.drop_left]

/-- Witness of the amended C7: the line `"\u2002A"` of the input
"\u2002A\n   B" loses 3 bytes, the one character U+2002. -/
theorem Indent_removes_min_byte_indent_witness :
    3 < [0xE2, 0x80, 0x82, 65].length ∧
      (splitLF (Indent [0xE2, 0x80, 0x82, 65, 10, 32, 32, 32, 66]))[0]? =
        some ([0xE2, 0x80, 0x82, 65].drop 3) ∧
      (∀ r ∈ runes ([0xE2, 0x80, 0x82, 65].take 3), isSpace r = true) ∧
      runes ([0xE2, 0x80, 0x82, 65].drop 3) =
        (runes [0xE2, 0x80, 0x82, 65]).drop (runes ([0xE2, 0x80, 0x82, 65].take 3)).length :=
  Indent_removes_min_byte_indent [0xE2, 0x80, 0x82, 65, 10, 32, 32, 32, 66] 3 0
    [0xE2, 0x80, 0x82, 65] (by decide)
    ⟨⟨[0xE2, 0x80, 0x82, 65], by decide, by decide, by decide⟩, by decide⟩
    (by decide) (by decide) (by decide)

end Trim
